import Mathlib

/-!
# Verification of the flat-NUTS path/reflection engine

Shallow embedding of `mininest/flatnuts.py`: directional sampling with
reflections off the unit cube, sparse integer-indexed sampling paths,
threshold-based accept/reject, one-shot reflect-and-retry stepping and the
final chain-point draw.

Modelling conventions:
* real-valued program quantities are modelled over `ℚ` (exact arithmetic in
  place of IEEE doubles); vectors are `List ℚ`;
* fallible code returns `Option`: a `none` models a Python exception
  (`assert` failure, `KeyError`, `ValueError`) or exhaustion of the explicit
  fuel given to the `while True` event loop of `linear_steps_with_reflection`;
* the IEEE `NaN`/`±inf` per-axis slab values that `nearest_box_intersection_line`
  produces for a zero direction component are collapsed to `none`: they are
  exactly the values that `np.nanmin`/`np.nanmax` ignore, and when no finite
  value remains the function's own asserts fail, which the embedding models
  by returning `none` as well.
-/

namespace FlatNuts

/-! ## Vector helpers on `List ℚ` -/

/-- Componentwise sum of products, `(a * b).sum()` in the source. -/
def dotQ (a b : List ℚ) : ℚ := (List.zipWith (· * ·) a b).sum

/-- Squared Euclidean norm. -/
def sumSq (v : List ℚ) : ℚ := dotQ v v

/-- Componentwise negation, `-v`. -/
def negV (v : List ℚ) : List ℚ := v.map (fun x => -x)

/-- Scalar multiple, `c * v`. -/
def smulV (c : ℚ) (v : List ℚ) : List ℚ := v.map (fun x => c * x)

/-- `o + t * d` componentwise. -/
def axpyV (t : ℚ) (o d : List ℚ) : List ℚ := List.zipWith (fun x u => x + t * u) o d

/-- Componentwise clamp to `[0,1]` (`pF[pF < 0] = 0; pF[pF > 1] = 1`). -/
def clamp01 (v : List ℚ) : List ℚ :=
  v.map (fun x => if x < 0 then 0 else if 1 < x then 1 else x)

/-- All coordinates within `[0,1]`: the unit-box asserts of the source. -/
def inBoxb (v : List ℚ) : Bool := v.all (fun x => decide (0 ≤ x) && decide (x ≤ 1))

/-! ## Sphere/vector geometry from the source -/

/-- `angle(a, b)`: the dot product between vectors `a` and `b`. -/
def angle (a b : List ℚ) : ℚ := dotQ a b

/-- `reflect(v, normal) = v - 2 * (normal * v).sum() * normal`. -/
def reflect (v normal : List ℚ) : List ℚ :=
  List.zipWith (fun vi ni => vi - 2 * dotQ normal v * ni) v normal

/-! ### Bilinearity toolkit for `dotQ` -/

theorem dotQ_nil_left (b : List ℚ) : dotQ [] b = 0 := rfl

theorem dotQ_cons_cons (x y : ℚ) (a b : List ℚ) :
    dotQ (x :: a) (y :: b) = x * y + dotQ a b := by
  simp [dotQ, List.zipWith]

theorem dotQ_comm (a b : List ℚ) : dotQ a b = dotQ b a := by
  induction a generalizing b with
  | nil => cases b <;> rfl
  | cons x a ih =>
    cases b with
    | nil => rfl
    | cons y b => simp [dotQ_cons_cons, ih, mul_comm]

theorem sumSq_sub_smul (c : ℚ) (a b : List ℚ) (h : a.length = b.length) :
    sumSq (List.zipWith (fun x y => x - c * y) a b)
      = sumSq a - 2 * c * dotQ a b + c ^ 2 * sumSq b := by
  induction a generalizing b with
  | nil =>
    cases b with
    | nil => simp [sumSq, dotQ]
    | cons y b => simp at h
  | cons x a ih =>
    cases b with
    | nil => simp at h
    | cons y b =>
      have h' : a.length = b.length := by simpa using h
      simp only [List.zipWith_cons_cons, sumSq, dotQ_cons_cons] at *
      rw [ih b h']
      ring

theorem sumSq_reflect (v n : List ℚ) (hlen : v.length = n.length)
    (hn : sumSq n = 1) : sumSq (reflect v n) = sumSq v := by
  have h := sumSq_sub_smul (2 * dotQ n v) v n hlen
  have hr : reflect v n = List.zipWith (fun x y => x - 2 * dotQ n v * y) v n := rfl
  rw [hr, h, hn, dotQ_comm v n]
  ring

/-! ## One-dimensional billiard folding

The event loop of `linear_steps_with_reflection` moves every coordinate as an
independent one-dimensional billiard in `[0,1]`.  Its closed form is the
period-2 triangle wave `foldPos` applied to the unfolded coordinate
`x + t*v`, with the direction sign given by `dirFold`.  These are proof
vocabulary, not source translations. -/

/-- `y` reduced mod 2 into `[0,2)`. -/
def fract2 (y : ℚ) : ℚ := y - 2 * ⌊y / 2⌋

/-- Triangle-wave fold of the real line onto `[0,1]`. -/
def foldPos (y : ℚ) : ℚ := if fract2 y ≤ 1 then fract2 y else 2 - fract2 y

/-- Arrival direction of the 1-d billiard that started with velocity `v` and
whose unfolded coordinate is `y`. -/
def dirFold (v y : ℚ) : ℚ :=
  if 0 < v then (if 0 < fract2 y ∧ fract2 y ≤ 1 then v else -v)
  else if v < 0 then (if fract2 y < 1 then v else -v)
  else 0

theorem fract2_nonneg (y : ℚ) : 0 ≤ fract2 y := by
  have h := Int.floor_le (y / 2)
  unfold fract2
  have h2 : (2 : ℚ) * ⌊y / 2⌋ ≤ 2 * (y / 2) := by linarith
  linarith [h2]

theorem fract2_lt_two (y : ℚ) : fract2 y < 2 := by
  have h := Int.lt_floor_add_one (y / 2)
  unfold fract2
  have h2 : y / 2 * 2 < (⌊y / 2⌋ + 1) * 2 := by linarith
  have h3 : y < 2 * ⌊y / 2⌋ + 2 := by linarith
  linarith

/-- Master reduction: a number written as `2m + r` with `r ∈ [0,2)` has
fractional part `r`. -/
theorem fract2_reduce (m : ℤ) (r : ℚ) (h0 : 0 ≤ r) (h2 : r < 2) :
    fract2 (2 * m + r) = r := by
  unfold fract2
  have hfl : ⌊(2 * (m : ℚ) + r) / 2⌋ = m + ⌊r / 2⌋ := by
    have : (2 * (m : ℚ) + r) / 2 = r / 2 + m := by ring
    rw [this, Int.floor_add_int]
    ring
  have hr2 : ⌊r / 2⌋ = 0 := by
    apply Int.floor_eq_zero_iff.mpr
    constructor
    · positivity
    · simpa using by linarith
  rw [hfl, hr2]
  push_cast
  ring

theorem fract2_self (y : ℚ) (h0 : 0 ≤ y) (h2 : y < 2) : fract2 y = y := by
  have := fract2_reduce 0 y h0 h2
  simpa using this

/-- Canonical decomposition `y = 2⌊y/2⌋ + fract2 y`. -/
theorem fract2_decomp (y : ℚ) : y = 2 * ⌊y / 2⌋ + fract2 y := by
  unfold fract2; ring

theorem fract2_int_shift (y : ℚ) (m : ℤ) : fract2 (y + 2 * m) = fract2 y := by
  conv_lhs => rw [fract2_decomp y]
  have : 2 * (⌊y / 2⌋ : ℚ) + fract2 y + 2 * m = 2 * ((⌊y / 2⌋ + m : ℤ) : ℚ) + fract2 y := by
    push_cast; ring
  rw [this, fract2_reduce _ _ (fract2_nonneg y) (fract2_lt_two y)]

theorem fract2_neg (y : ℚ) :
    fract2 (-y) = if fract2 y = 0 then 0 else 2 - fract2 y := by
  have hy : y = 2 * ⌊y / 2⌋ + fract2 y := fract2_decomp y
  by_cases h : fract2 y = 0
  · rw [if_pos h]
    have hny : -y = 2 * ((-⌊y / 2⌋ : ℤ) : ℚ) + 0 := by
      conv_lhs => rw [hy, h]
      push_cast
      ring
    rw [hny, fract2_reduce _ _ le_rfl (by norm_num)]
  · rw [if_neg h]
    have hr0 : 0 ≤ fract2 y := fract2_nonneg y
    have hr2 : fract2 y < 2 := fract2_lt_two y
    have hrpos : 0 < fract2 y := lt_of_le_of_ne hr0 (Ne.symm h)
    have hny : -y = 2 * ((-⌊y / 2⌋ - 1 : ℤ) : ℚ) + (2 - fract2 y) := by
      conv_lhs => rw [hy]
      push_cast
      ring
    rw [hny, fract2_reduce _ _ (by linarith) (by linarith)]

theorem foldPos_nonneg (y : ℚ) : 0 ≤ foldPos y := by
  unfold foldPos
  split
  · exact fract2_nonneg y
  · linarith [fract2_lt_two y]

theorem foldPos_le_one (y : ℚ) : foldPos y ≤ 1 := by
  unfold foldPos
  split
  · assumption
  · linarith [le_of_not_le (by assumption : ¬ fract2 y ≤ 1)]

theorem foldPos_int_shift (y : ℚ) (m : ℤ) : foldPos (y + 2 * m) = foldPos y := by
  unfold foldPos
  rw [fract2_int_shift]

theorem foldPos_neg (y : ℚ) : foldPos (-y) = foldPos y := by
  unfold foldPos
  rw [fract2_neg]
  by_cases h : fract2 y = 0
  · simp [h]
  · simp only [if_neg h]
    have hr0 : 0 ≤ fract2 y := fract2_nonneg y
    have hr2 : fract2 y < 2 := fract2_lt_two y
    have hrpos : 0 < fract2 y := lt_of_le_of_ne hr0 (Ne.symm h)
    by_cases h1 : fract2 y ≤ 1
    · by_cases h1' : fract2 y = 1
      · rw [h1']; norm_num
      · have : ¬ (2 - fract2 y ≤ 1) := by
          push_neg
          have : fract2 y < 1 := lt_of_le_of_ne h1 h1'
          linarith
        rw [if_neg this, if_pos h1]
        ring
    · have : 2 - fract2 y ≤ 1 := by linarith [lt_of_not_le h1]
      rw [if_pos this, if_neg h1]

theorem foldPos_self (y : ℚ) (h0 : 0 ≤ y) (h1 : y ≤ 1) : foldPos y = y := by
  unfold foldPos
  rw [fract2_self y h0 (by linarith)]
  exact if_pos h1

theorem dirFold_int_shift (v y : ℚ) (m : ℤ) : dirFold v (y + 2 * m) = dirFold v y := by
  unfold dirFold
  rw [fract2_int_shift]

/-- Reversing both the velocity and the unfolded coordinate leaves the arrival
direction unchanged. -/
theorem dirFold_neg_neg (v y : ℚ) : dirFold (-v) (-y) = dirFold v y := by
  unfold dirFold
  rw [fract2_neg]
  rcases lt_trichotomy v 0 with hv | rfl | hv
  · rw [if_pos (show (0:ℚ) < -v by linarith), if_neg (show ¬ (0:ℚ) < v by linarith),
      if_pos hv]
    by_cases h : fract2 y = 0
    · simp only [if_pos h]
      rw [h]
      norm_num
    · simp only [if_neg h]
      have hr2 : fract2 y < 2 := fract2_lt_two y
      have hrpos : 0 < fract2 y := lt_of_le_of_ne (fract2_nonneg y) (Ne.symm h)
      by_cases hb : fract2 y < 1
      · have c1 : ¬ (0 < 2 - fract2 y ∧ 2 - fract2 y ≤ 1) := by
          rintro ⟨-, hc⟩
          linarith
        rw [if_neg c1, if_pos hb]
        ring
      · have c1 : 0 < 2 - fract2 y ∧ 2 - fract2 y ≤ 1 := by
          constructor <;> linarith [le_of_not_lt hb]
        rw [if_pos c1, if_neg hb]
  · norm_num
  · rw [if_neg (show ¬ (0:ℚ) < -v by linarith), if_pos (show -v < 0 by linarith),
      if_pos hv]
    by_cases h : fract2 y = 0
    · simp only [if_pos h]
      rw [h]
      norm_num
    · simp only [if_neg h]
      have hr2 : fract2 y < 2 := fract2_lt_two y
      have hrpos : 0 < fract2 y := lt_of_le_of_ne (fract2_nonneg y) (Ne.symm h)
      by_cases hb : fract2 y ≤ 1
      · have c1 : ¬ (2 - fract2 y < 1) := by
          push_neg
          linarith
        rw [if_neg c1, if_pos ⟨hrpos, hb⟩]
        ring
      · have c1 : 2 - fract2 y < 1 := by linarith [lt_of_not_le hb]
        have c2 : ¬ (0 < fract2 y ∧ fract2 y ≤ 1) := by
          rintro ⟨-, hc⟩
          exact hb hc
        rw [if_pos c1, if_neg c2]

/-- Away from the walls, flipping only the velocity flips the arrival
direction. -/
theorem dirFold_neg_fst (v y : ℚ) (h0 : fract2 y ≠ 0) (h1 : fract2 y ≠ 1) :
    dirFold (-v) y = -dirFold v y := by
  unfold dirFold
  have hrpos : 0 < fract2 y := lt_of_le_of_ne (fract2_nonneg y) (Ne.symm h0)
  rcases lt_trichotomy v 0 with hv | rfl | hv
  · rw [if_pos (show (0:ℚ) < -v by linarith), if_neg (show ¬ (0:ℚ) < v by linarith),
      if_pos hv]
    by_cases hb : fract2 y < 1
    · rw [if_pos ⟨hrpos, le_of_lt hb⟩, if_pos hb]
    · have c1 : ¬ (0 < fract2 y ∧ fract2 y ≤ 1) := by
        rintro ⟨-, hc⟩
        exact hb (lt_of_le_of_ne hc h1)
      rw [if_neg c1, if_neg hb]
  · norm_num
  · rw [if_neg (show ¬ (0:ℚ) < -v by linarith), if_pos (show -v < 0 by linarith),
      if_pos hv]
    by_cases hb : fract2 y ≤ 1
    · rw [if_pos (lt_of_le_of_ne hb h1), if_pos ⟨hrpos, hb⟩]
    · have c1 : ¬ (fract2 y < 1) := by
        push_neg at hb ⊢
        linarith
      have c2 : ¬ (0 < fract2 y ∧ fract2 y ≤ 1) := by
        rintro ⟨-, hc⟩
        exact hb hc
      rw [if_neg c1, if_neg c2]

theorem dirFold_seg_pos (v y : ℚ) (hv : 0 < v) (h0 : 0 < y) (h1 : y ≤ 1) :
    dirFold v y = v := by
  unfold dirFold
  rw [fract2_self y (le_of_lt h0) (by linarith)]
  rw [if_pos hv, if_pos ⟨h0, h1⟩]

theorem dirFold_seg_neg (v y : ℚ) (hv : v < 0) (h0 : 0 ≤ y) (h1 : y < 1) :
    dirFold v y = v := by
  unfold dirFold
  rw [fract2_self y h0 (by linarith)]
  rw [if_neg (by linarith : ¬ (0:ℚ) < v), if_pos hv, if_pos h1]

/-! ## Per-axis exit time -/

/-- Time along `v` until coordinate `x ∈ [0,1]` first reaches a wall:
`(1-x)/v` when moving up, `x/(-v)` when moving down.  Only meaningful for
`v ≠ 0`. -/
def exitT (x v : ℚ) : ℚ := if 0 < v then (1 - x) / v else x / (-v)

/-- The wall hit by coordinate `x` moving with velocity `v`. -/
def wallOf (v : ℚ) : ℚ := if 0 < v then 1 else 0

theorem exitT_nonneg (x v : ℚ) (h0 : 0 ≤ x) (h1 : x ≤ 1) : 0 ≤ exitT x v := by
  unfold exitT
  rcases lt_trichotomy v 0 with hvn | rfl | hvp
  · rw [if_neg (show ¬ (0:ℚ) < v by linarith)]
    exact div_nonneg h0 (by linarith)
  · rw [if_neg (lt_irrefl 0)]
    norm_num
  · rw [if_pos hvp]
    exact div_nonneg (by linarith) (by linarith)

theorem exitT_seg (x v s : ℚ) (hv : v ≠ 0) (h0 : 0 ≤ x) (h1 : x ≤ 1)
    (hs0 : 0 ≤ s) (hs : s ≤ exitT x v) : 0 ≤ x + s * v ∧ x + s * v ≤ 1 := by
  unfold exitT at hs
  rcases lt_trichotomy v 0 with hvn | rfl | hvp
  · rw [if_neg (show ¬ (0:ℚ) < v by linarith)] at hs
    have hsv : s * (-v) ≤ x := by
      calc s * (-v) ≤ (x / (-v)) * (-v) := by
            apply mul_le_mul_of_nonneg_right hs (by linarith)
        _ = x := div_mul_cancel₀ x (by linarith)
    constructor
    · nlinarith
    · nlinarith
  · exact absurd rfl hv
  · rw [if_pos hvp] at hs
    have hsv : s * v ≤ 1 - x := by
      calc s * v ≤ ((1 - x) / v) * v := by
            apply mul_le_mul_of_nonneg_right hs (by linarith)
        _ = 1 - x := div_mul_cancel₀ (1 - x) (by linarith)
    constructor
    · nlinarith
    · nlinarith

theorem exitT_shift (x v s : ℚ) (hv : v ≠ 0) :
    exitT (x + s * v) v = exitT x v - s := by
  unfold exitT
  rcases lt_trichotomy v 0 with hvn | rfl | hvp
  · rw [if_neg (show ¬ (0:ℚ) < v by linarith), if_neg (show ¬ (0:ℚ) < v by linarith)]
    have hnv : -v ≠ 0 := ne_of_gt (by linarith)
    field_simp
    ring
  · exact absurd rfl hv
  · rw [if_pos hvp, if_pos hvp]
    have hnv : v ≠ 0 := ne_of_gt hvp
    field_simp
    ring

theorem exitT_wall (x v : ℚ) (hv : v ≠ 0) : x + exitT x v * v = wallOf v := by
  unfold exitT wallOf
  rcases lt_trichotomy v 0 with hvn | rfl | hvp
  · rw [if_neg (show ¬ (0:ℚ) < v by linarith), if_neg (show ¬ (0:ℚ) < v by linarith)]
    have hnv : -v ≠ 0 := ne_of_gt (by linarith)
    field_simp
  · exact absurd rfl hv
  · rw [if_pos hvp, if_pos hvp]
    have hnv : v ≠ 0 := ne_of_gt hvp
    field_simp

theorem exitT_after_flip (v : ℚ) (hv : v ≠ 0) : exitT (wallOf v) (-v) = 1 / |v| := by
  unfold exitT wallOf
  rcases lt_trichotomy v 0 with hvn | rfl | hvp
  · rw [if_pos (by linarith : (0:ℚ) < -v), if_neg (by linarith : ¬ (0:ℚ) < v),
      abs_of_neg hvn]
    field_simp
  · exact absurd rfl hv
  · rw [if_neg (by linarith : ¬ (0:ℚ) < -v), if_pos hvp, abs_of_pos hvp]
    field_simp

/-! ## Per-axis analysis of one loop event

An event moves a crossing coordinate to its wall and flips its velocity; the
folded final state is unchanged. -/

theorem axis_event_cross (x v tleft : ℚ) (hv : v ≠ 0) (h0 : 0 ≤ x) (h1 : x ≤ 1) :
    foldPos (wallOf v + (tleft - exitT x v) * (-v)) = foldPos (x + tleft * v) ∧
    dirFold (-v) (wallOf v + (tleft - exitT x v) * (-v)) = dirFold v (x + tleft * v) := by
  have hwall := exitT_wall x v hv
  set e := exitT x v with he
  have hx : x + tleft * v = wallOf v + (tleft - e) * v := by
    rw [← hwall]
    ring
  rcases lt_trichotomy v 0 with hvn | rfl | hvp
  · -- wall 0: new unfolded coordinate is the negation of the old one
    have hw : wallOf v = 0 := by unfold wallOf; rw [if_neg (by linarith : ¬ (0:ℚ) < v)]
    rw [hx, hw]
    have harg : (0:ℚ) + (tleft - e) * -v = -(0 + (tleft - e) * v) := by ring
    rw [harg]
    exact ⟨foldPos_neg _, dirFold_neg_neg v _⟩
  · exact absurd rfl hv
  · -- wall 1: reflect about 1, i.e. negate then shift by 2
    have hw : wallOf v = 1 := by unfold wallOf; rw [if_pos hvp]
    rw [hx, hw]
    have harg : (1:ℚ) + (tleft - e) * -v = -(1 + (tleft - e) * v) + 2 * (1 : ℤ) := by
      push_cast
      ring
    constructor
    · rw [harg, foldPos_int_shift, foldPos_neg]
    · rw [harg, dirFold_int_shift, dirFold_neg_neg v _]

/-- The final straight segment of the loop equals the folded closed form. -/
theorem axis_final_seg (x v tleft : ℚ) (h0 : 0 ≤ x) (h1 : x ≤ 1) (ht : 0 < tleft)
    (hseg : v ≠ 0 → tleft ≤ exitT x v) :
    foldPos (x + tleft * v) = x + tleft * v ∧
    dirFold v (x + tleft * v) = v := by
  rcases lt_trichotomy v 0 with hvn | rfl | hvp
  · obtain ⟨hl, hr⟩ := exitT_seg x v tleft (by linarith) h0 h1 (le_of_lt ht)
      (hseg (by linarith))
    have hlt : x + tleft * v < 1 := by nlinarith
    exact ⟨foldPos_self _ hl (le_of_lt hlt), dirFold_seg_neg v _ hvn hl hlt⟩
  · constructor
    · rw [mul_zero, add_zero]
      exact foldPos_self x h0 h1
    · unfold dirFold
      norm_num
  · obtain ⟨hl, hr⟩ := exitT_seg x v tleft (by linarith) h0 h1 (le_of_lt ht)
      (hseg (by linarith))
    have hgt : 0 < x + tleft * v := by nlinarith
    exact ⟨foldPos_self _ (le_of_lt hgt) hr, dirFold_seg_pos v _ hvp hgt hr⟩

/-! ## Per-axis round trip and composition -/

/-- Round trip: starting strictly inside, fold forward by `t`, then fold from
the arrival state with negated direction by the same `t`; this returns to the
start with negated direction. -/
theorem axis_roundtrip (x v t : ℚ) (hx0 : 0 < x) (hx1 : x < 1) :
    foldPos (foldPos (x + t * v) + t * -(dirFold v (x + t * v))) = x ∧
    dirFold (-(dirFold v (x + t * v)))
      (foldPos (x + t * v) + t * -(dirFold v (x + t * v))) = -v := by
  set y := x + t * v with hy
  have hdec : y = 2 * ⌊y / 2⌋ + fract2 y := fract2_decomp y
  rcases lt_trichotomy v 0 with hvn | rfl | hvp
  · -- v < 0
    by_cases hb : fract2 y < 1
    · -- arrival in an even strip: foldPos y = fract2 y, dirFold = v
      have hp : foldPos y = fract2 y := by unfold foldPos; rw [if_pos (le_of_lt hb)]
      have hd : dirFold v y = v := by
        unfold dirFold
        rw [if_neg (by linarith : ¬ (0:ℚ) < v), if_pos hvn, if_pos hb]
      rw [hp, hd]
      have harg : fract2 y + t * -v = x + 2 * (-⌊y / 2⌋ : ℤ) := by
        push_cast
        have : fract2 y = y - 2 * ⌊y / 2⌋ := rfl
        rw [this, hy]
        ring
      rw [harg, foldPos_int_shift, dirFold_int_shift,
        foldPos_self x (le_of_lt hx0) (le_of_lt hx1)]
      refine ⟨rfl, ?_⟩
      have : dirFold (-v) x = -v := dirFold_seg_pos (-v) x (by linarith) hx0 (le_of_lt hx1)
      simpa using this
    · -- arrival in an odd strip: foldPos y = 2 - fract2 y, dirFold = -v
      have hp : foldPos y = 2 - fract2 y := by
        unfold foldPos
        rcases le_or_lt (fract2 y) 1 with hle | hgt
        · have h1 : fract2 y = 1 := le_antisymm hle (le_of_not_lt hb)
          rw [if_pos hle, h1]
          norm_num
        · rw [if_neg (not_le_of_lt hgt)]
      have hd : dirFold v y = -v := by
        unfold dirFold
        rw [if_neg (show ¬ (0:ℚ) < v by linarith), if_pos hvn, if_neg hb]
      rw [hp, hd]
      have harg : 2 - fract2 y + t * - -v = -x + 2 * (⌊y / 2⌋ + 1 : ℤ) := by
        push_cast
        have : fract2 y = y - 2 * ⌊y / 2⌋ := rfl
        rw [this, hy]
        ring
      rw [harg, foldPos_int_shift, dirFold_int_shift, foldPos_neg,
        foldPos_self x (le_of_lt hx0) (le_of_lt hx1)]
      refine ⟨rfl, ?_⟩
      have hfr : fract2 (-x) = 2 - x := by
        rw [fract2_neg, fract2_self x (le_of_lt hx0) (by linarith),
          if_neg (show ¬ x = 0 by linarith)]
      have : dirFold (- -v) (-x) = -v := by
        rw [neg_neg]
        unfold dirFold
        rw [hfr, if_neg (show ¬ (0:ℚ) < v by linarith), if_pos hvn,
          if_neg (show ¬ (2 - x < 1) by push_neg; linarith)]
      simpa using this
  · -- v = 0
    have hy0 : y = x := by rw [hy]; ring
    have hd : dirFold 0 y = 0 := by unfold dirFold; norm_num
    rw [hd, hy0, foldPos_self x (le_of_lt hx0) (le_of_lt hx1)]
    constructor
    · rw [neg_zero, mul_zero, add_zero, foldPos_self x (le_of_lt hx0) (le_of_lt hx1)]
    · rw [neg_zero, mul_zero, add_zero]
      unfold dirFold
      norm_num
  · -- 0 < v
    by_cases h0 : fract2 y = 0
    · -- arrival exactly at an even integer: foldPos y = 0, dirFold = -v
      have hp : foldPos y = 0 := by unfold foldPos; rw [h0]; norm_num
      have hd : dirFold v y = -v := by
        unfold dirFold
        rw [if_pos hvp, if_neg (by rw [h0]; rintro ⟨hc, -⟩; exact lt_irrefl 0 hc)]
      rw [hp, hd]
      have harg : (0:ℚ) + t * - -v = -x + 2 * (⌊y / 2⌋ : ℤ) := by
        push_cast
        have h2 : y = 2 * ⌊y / 2⌋ := by
          have : fract2 y = y - 2 * ⌊y / 2⌋ := rfl
          rw [this] at h0
          linarith
        rw [hy] at h2
        linarith [h2]
      rw [harg, foldPos_int_shift, dirFold_int_shift, foldPos_neg,
        foldPos_self x (le_of_lt hx0) (le_of_lt hx1)]
      refine ⟨rfl, ?_⟩
      have hfr : fract2 (-x) = 2 - x := by
        rw [fract2_neg, fract2_self x (le_of_lt hx0) (by linarith),
          if_neg (show ¬ x = 0 by linarith)]
      have : dirFold (- -v) (-x) = -v := by
        rw [neg_neg]
        unfold dirFold
        rw [hfr, if_pos hvp,
          if_neg (show ¬ (0 < 2 - x ∧ 2 - x ≤ 1) by rintro ⟨-, hc⟩; linarith)]
      simpa using this
    · by_cases hb : fract2 y ≤ 1
      · -- arrival in an even strip with fract2 y ∈ (0,1]
        have hp : foldPos y = fract2 y := by unfold foldPos; rw [if_pos hb]
        have hfr0 : 0 < fract2 y := lt_of_le_of_ne (fract2_nonneg y) (Ne.symm h0)
        have hd : dirFold v y = v := by
          unfold dirFold
          rw [if_pos hvp, if_pos ⟨hfr0, hb⟩]
        rw [hp, hd]
        have harg : fract2 y + t * -v = x + 2 * (-⌊y / 2⌋ : ℤ) := by
          push_cast
          have : fract2 y = y - 2 * ⌊y / 2⌋ := rfl
          rw [this, hy]
          ring
        rw [harg, foldPos_int_shift, dirFold_int_shift,
          foldPos_self x (le_of_lt hx0) (le_of_lt hx1)]
        refine ⟨rfl, ?_⟩
        have : dirFold (-v) x = -v := dirFold_seg_neg (-v) x (by linarith)
          (le_of_lt hx0) hx1
        simpa using this
      · -- arrival in an odd strip
        have hp : foldPos y = 2 - fract2 y := by unfold foldPos; rw [if_neg hb]
        have hd : dirFold v y = -v := by
          unfold dirFold
          rw [if_pos hvp, if_neg (by rintro ⟨-, hc⟩; exact hb hc)]
        rw [hp, hd]
        have harg : 2 - fract2 y + t * - -v = -x + 2 * (⌊y / 2⌋ + 1 : ℤ) := by
          push_cast
          have : fract2 y = y - 2 * ⌊y / 2⌋ := rfl
          rw [this, hy]
          ring
        rw [harg, foldPos_int_shift, dirFold_int_shift, foldPos_neg,
          foldPos_self x (le_of_lt hx0) (le_of_lt hx1)]
        refine ⟨rfl, ?_⟩
        have hfr : fract2 (-x) = 2 - x := by
          rw [fract2_neg, fract2_self x (le_of_lt hx0) (by linarith),
            if_neg (show ¬ x = 0 by linarith)]
        have : dirFold (- -v) (-x) = -v := by
          rw [neg_neg]
          unfold dirFold
          rw [hfr, if_pos hvp,
            if_neg (show ¬ (0 < 2 - x ∧ 2 - x ≤ 1) by rintro ⟨-, hc⟩; linarith)]
        simpa using this

/-! ## Pointwise list toolkit -/

theorem eq_of_getD {α : Type} (d : α) (a b : List α) (hlen : a.length = b.length)
    (h : ∀ i, i < a.length → a.getD i d = b.getD i d) : a = b := by
  induction a generalizing b with
  | nil =>
    cases b with
    | nil => rfl
    | cons y b => simp at hlen
  | cons x a ih =>
    cases b with
    | nil => simp at hlen
    | cons y b =>
      have hx : x = y := by simpa using h 0 (by simp)
      have ht : a = b := by
        apply ih b (by simpa using hlen)
        intro i hi
        simpa using h (i + 1) (by simpa using hi)
      rw [hx, ht]

theorem getD_zipWith {α : Type} (d : α) (f : α → α → α) (a b : List α) (i : ℕ)
    (h1 : i < a.length) (h2 : i < b.length) :
    (List.zipWith f a b).getD i d = f (a.getD i d) (b.getD i d) := by
  induction a generalizing b i with
  | nil => simp at h1
  | cons x a ih =>
    cases b with
    | nil => simp at h2
    | cons y b =>
      cases i with
      | zero => simp
      | succ i =>
        simp only [List.zipWith_cons_cons, List.getD_cons_succ]
        exact ih b i (by simpa using h1) (by simpa using h2)

theorem getD_map {α : Type} (d : α) (f : α → α) (a : List α) (i : ℕ)
    (h : i < a.length) : (a.map f).getD i d = f (a.getD i d) := by
  induction a generalizing i with
  | nil => simp at h
  | cons x a ih =>
    cases i with
    | zero => simp
    | succ i =>
      simp only [List.map_cons, List.getD_cons_succ]
      exact ih i (by simpa using h)

theorem getD_of_ge {α : Type} (d : α) (a : List α) (i : ℕ) (h : a.length ≤ i) :
    a.getD i d = d := by
  induction a generalizing i with
  | nil => simp [List.getD]
  | cons x a ih =>
    cases i with
    | zero => simp at h
    | succ i =>
      simp only [List.getD_cons_succ]
      exact ih i (by simpa using h)

theorem getD_set {α : Type} (d : α) (a : List α) (i j : ℕ) (x : α) :
    (a.set i x).getD j d = if i = j ∧ j < a.length then x else a.getD j d := by
  induction a generalizing i j with
  | nil => simp [List.getD]
  | cons y a ih =>
    cases i with
    | zero =>
      cases j with
      | zero => simp
      | succ j => simp [Nat.succ_ne_zero]
    | succ i =>
      cases j with
      | zero => simp
      | succ j =>
        simp only [List.set_cons_succ, List.getD_cons_succ, ih i j, List.length_cons]
        by_cases hij : i = j
        · subst hij
          by_cases hlt : i < a.length
          · rw [if_pos ⟨rfl, hlt⟩, if_pos ⟨rfl, by omega⟩]
          · rw [if_neg (by omega), if_neg (by omega)]
        · rw [if_neg (by omega), if_neg (by omega)]

/-- Fancy-indexing update `xs[idxs] = f(idxs, xs[idxs])`, the shape of the
numpy assignments `ray_direction[i] *= ...` in the source. -/
def updAt {α : Type} (dflt : α) (f : ℕ → α → α) (idxs : List ℕ) (xs : List α) : List α :=
  idxs.foldl (fun a i => a.set i (f i (a.getD i dflt))) xs

theorem updAt_cons {α : Type} (dflt : α) (f : ℕ → α → α) (i : ℕ) (is : List ℕ)
    (xs : List α) :
    updAt dflt f (i :: is) xs = updAt dflt f is (xs.set i (f i (xs.getD i dflt))) := rfl

theorem length_updAt {α : Type} (dflt : α) (f : ℕ → α → α) (idxs : List ℕ)
    (xs : List α) : (updAt dflt f idxs xs).length = xs.length := by
  induction idxs generalizing xs with
  | nil => rfl
  | cons i is ih =>
    rw [updAt_cons, ih, List.length_set]

theorem getD_updAt {α : Type} (dflt : α) (f : ℕ → α → α) (idxs : List ℕ)
    (xs : List α) (hnd : idxs.Nodup) (j : ℕ) :
    (updAt dflt f idxs xs).getD j dflt =
      if j ∈ idxs ∧ j < xs.length then f j (xs.getD j dflt) else xs.getD j dflt := by
  induction idxs generalizing xs with
  | nil => simp [updAt]
  | cons i is ih =>
    have hni : i ∉ is := (List.nodup_cons.mp hnd).1
    have hnd' : is.Nodup := (List.nodup_cons.mp hnd).2
    rw [updAt_cons, ih _ hnd']
    rw [List.length_set]
    by_cases hjs : j ∈ is
    · have hji : j ≠ i := fun h => hni (h ▸ hjs)
      by_cases hlt : j < xs.length
      · rw [if_pos ⟨hjs, hlt⟩, if_pos ⟨by simp [hjs], hlt⟩,
          getD_set, if_neg (by omega)]
      · rw [if_neg (by omega), if_neg (by omega), getD_set, if_neg (by omega)]
    · rw [if_neg (fun hc => hjs hc.1)]
      rw [getD_set]
      by_cases hji : i = j
      · subst hji
        by_cases hlt : i < xs.length
        · rw [if_pos ⟨rfl, hlt⟩, if_pos ⟨by simp, hlt⟩]
        · rw [if_neg (by omega), if_neg (by omega)]
      · rw [if_neg (by omega)]
        rw [if_neg (by
          rintro ⟨hmem, -⟩
          rcases List.mem_cons.mp hmem with h | h
          · exact hji h.symm
          · exact hjs h)]

/-- Minimum of a list (`none` on the empty list). -/
def listMinO {α : Type} [LinearOrder α] : List α → Option α
  | [] => none
  | x :: xs => some (xs.foldl min x)

/-- Maximum of a list (`none` on the empty list). -/
def listMaxO {α : Type} [LinearOrder α] : List α → Option α
  | [] => none
  | x :: xs => some (xs.foldl max x)

theorem foldl_min_spec {α : Type} [LinearOrder α] (xs : List α) (a : α) :
    (xs.foldl min a ∈ a :: xs) ∧ ∀ y ∈ a :: xs, xs.foldl min a ≤ y := by
  induction xs generalizing a with
  | nil => simp
  | cons x xs ih =>
    obtain ⟨hmem, hle⟩ := ih (min a x)
    constructor
    · simp only [List.foldl_cons]
      rcases List.mem_cons.mp hmem with h | h
      · rw [h]
        rcases le_total a x with hax | hax
        · rw [min_eq_left hax]
          simp
        · rw [min_eq_right hax]
          simp
      · simp [h]
    · intro y hy
      simp only [List.foldl_cons]
      rcases List.mem_cons.mp hy with h | hy' 
      · rw [h]
        exact le_trans (hle _ (by simp)) (min_le_left a x)
      · rcases List.mem_cons.mp hy' with h | h
        · rw [h]
          exact le_trans (hle _ (by simp)) (min_le_right a x)
        · exact hle _ (by simp [h])

theorem foldl_max_spec {α : Type} [LinearOrder α] (xs : List α) (a : α) :
    (xs.foldl max a ∈ a :: xs) ∧ ∀ y ∈ a :: xs, y ≤ xs.foldl max a := by
  induction xs generalizing a with
  | nil => simp
  | cons x xs ih =>
    obtain ⟨hmem, hle⟩ := ih (max a x)
    constructor
    · simp only [List.foldl_cons]
      rcases List.mem_cons.mp hmem with h | h
      · rw [h]
        rcases le_total a x with hax | hax
        · rw [max_eq_right hax]
          simp
        · rw [max_eq_left hax]
          simp
      · simp [h]
    · intro y hy
      simp only [List.foldl_cons]
      rcases List.mem_cons.mp hy with h | hy' 
      · rw [h]
        exact le_trans (le_max_left a x) (hle _ (by simp))
      · rcases List.mem_cons.mp hy' with h | h
        · rw [h]
          exact le_trans (le_max_right a x) (hle _ (by simp))
        · exact hle _ (by simp [h])

theorem listMinO_spec {α : Type} [LinearOrder α] (xs : List α) (m : α)
    (h : listMinO xs = some m) : m ∈ xs ∧ ∀ y ∈ xs, m ≤ y := by
  cases xs with
  | nil => simp [listMinO] at h
  | cons x xs =>
    obtain ⟨hmem, hle⟩ := foldl_min_spec xs x
    simp only [listMinO, Option.some_inj] at h
    exact ⟨h ▸ hmem, fun y hy => h ▸ hle y hy⟩

theorem listMaxO_spec {α : Type} [LinearOrder α] (xs : List α) (m : α)
    (h : listMaxO xs = some m) : m ∈ xs ∧ ∀ y ∈ xs, y ≤ m := by
  cases xs with
  | nil => simp [listMaxO] at h
  | cons x xs =>
    obtain ⟨hmem, hle⟩ := foldl_max_spec xs x
    simp only [listMaxO, Option.some_inj] at h
    exact ⟨h ▸ hmem, fun y hy => h ▸ hle y hy⟩

theorem listMinO_isSome {α : Type} [LinearOrder α] (xs : List α) (h : xs ≠ []) :
    ∃ m, listMinO xs = some m := by
  cases xs with
  | nil => exact absurd rfl h
  | cons x xs => exact ⟨_, rfl⟩

theorem listMaxO_isSome {α : Type} [LinearOrder α] (xs : List α) (h : xs ≠ []) :
    ∃ m, listMaxO xs = some m := by
  cases xs with
  | nil => exact absurd rfl h
  | cons x xs => exact ⟨_, rfl⟩

/-! ## Ray–unit-cube intersection (`nearest_box_intersection_line`) -/

/-- Per-axis slab value: `m = 1/v`, `n = m*(x - 0.5)`, `k = |m|*0.5`, and the
line coordinate `-n + k` (forward) or `-n - k` (backward).  For `v = 0` the
float code produces `NaN`/`±inf`, which never survive the `nanmin`/`nanmax`;
they are collapsed to `none` (see the file header). -/
def slabTime (fwd : Bool) (x v : ℚ) : Option ℚ :=
  if v = 0 then none
  else
    let m := 1 / v
    let n := m * (x - 1/2)
    let k := |m| * (1/2)
    some (if fwd then -n + k else -n - k)

/-- `nearest_box_intersection_line(ray_origin, ray_direction, fwd)`.

Returns the crossing point (clamped to `[0,1]`), the crossing distance `tF`,
and the list of axes achieving it.  `none` models a failing assert (origin
outside the box, or no finite slab value so that the `NaN` coordinates trip
the `pF` asserts). -/
def nearest_box_intersection_line (o d : List ℚ) (fwd : Bool) :
    Option (List ℚ × ℚ × List ℕ) :=
  if ¬ inBoxb o then none
  else
    match if fwd then listMinO ((List.zipWith (slabTime fwd) o d).filterMap id)
          else listMaxO ((List.zipWith (slabTime fwd) o d).filterMap id) with
    | none => none
    | some tF =>
      if (axpyV tF o d).all
          (fun x => decide (-(1/1000000 : ℚ) ≤ x) && decide (x ≤ 1 + 1/1000000))
      then some (clamp01 (axpyV tF o d), tF,
        (List.range (List.zipWith (slabTime fwd) o d).length).filter
          (fun i => decide ((List.zipWith (slabTime fwd) o d).getD i none = some tF)))
      else none

/-! ## The reflecting walk (`linear_steps_with_reflection`) -/

/-- `ray_direction[i] *= -1` over the crossing axes. -/
def flipAt (idxs : List ℕ) (d : List ℚ) : List ℚ :=
  updAt 0 (fun _ x => -x) idxs d

/-- `reflected[i] = True` over the crossing axes. -/
def setTrueAt (idxs : List ℕ) (bs : List Bool) : List Bool :=
  updAt false (fun _ _ => true) idxs bs

/-- `ray_direction[i] *= np.where(wrapped_dims[i], 1, -1)`. -/
def wrapDirAt (w : List Bool) (idxs : List ℕ) (d : List ℚ) : List ℚ :=
  updAt 0 (fun i x => x * (if w.getD i false then 1 else -1)) idxs d

/-- `ray_origin[i] = np.where(wrapped_dims[i], 1 - ray_origin[i], ray_origin[i])`. -/
def wrapPosAt (w : List Bool) (idxs : List ℕ) (o : List ℚ) : List ℚ :=
  updAt 0 (fun i x => if w.getD i false then 1 - x else x) idxs o

/-- The `while True` event loop of `linear_steps_with_reflection`, with
explicit fuel.  `wrapped = none` is the default (pure reflection) mode;
`wrapped = some w` carries the `wrapped_dims` array and `reflected` the
bookkeeping array of axes already bounced. -/
def lswrAux (wrapped : Option (List Bool)) :
    ℕ → List Bool → List ℚ → List ℚ → ℚ → Option (List ℚ × List ℚ)
  | 0, _, _, _, _ => none
  | fuel + 1, reflected, o, d, tleft =>
    match nearest_box_intersection_line o d true with
    | none => none
    | some (p, t, iF) =>
      if 0 ≤ t then
        if tleft ≤ t then
          -- stopping before reaching any border; the source asserts the
          -- stopping point is inside the box
          if inBoxb (axpyV tleft o d) then some (axpyV tleft o d, d) else none
        else
          match wrapped with
          | none => lswrAux none fuel reflected p (flipAt iF d) (tleft - t)
          | some w =>
            if iF.any (fun i => reflected.getD i false && w.getD i false) then
              -- already bounced off that wrapped axis once: stop here
              some (p, d)
            else
              if iF.all (fun i => decide (p.getD i 0 = 0) || decide (p.getD i 0 = 1))
              then
                lswrAux (some w) fuel (setTrueAt iF reflected)
                  (wrapPosAt w iF p) (wrapDirAt w iF d) (tleft - t)
              else none
      else none

/-- `linear_steps_with_reflection(ray_origin, ray_direction, t, wrapped_dims)`.

For `t < 0` the source recurses on `(ray_origin, -ray_direction, -t)` and
negates the returned direction; that inner call leaves `wrapped_dims` at its
default `None` and takes the `t > 0` path, which is inlined here. -/
def linear_steps_with_reflection (wrapped : Option (List Bool)) (fuel : ℕ)
    (o d : List ℚ) (t : ℚ) : Option (List ℚ × List ℚ) :=
  if t = 0 then some (o, d)
  else if t < 0 then
    match lswrAux none fuel (List.replicate o.length false) o (negV d) (-t) with
    | none => none
    | some (p, nd) => some (p, negV nd)
  else lswrAux wrapped fuel (List.replicate o.length false) o d t

/-- `extrapolate_ahead(di, xj, vj)`: `di` steps of size `vj` from `xj`. -/
def extrapolate_ahead (fuel : ℕ) (di : ℚ) (xj vj : List ℚ) :
    Option (List ℚ × List ℚ) :=
  linear_steps_with_reflection none fuel xj vj di

/-! ## Characterization of the forward box intersection -/

theorem getD_zipWith2 {α β : Type} (da : α) (dz : β) (f : α → α → β)
    (a b : List α) (i : ℕ) (h1 : i < a.length) (h2 : i < b.length) :
    (List.zipWith f a b).getD i dz = f (a.getD i da) (b.getD i da) := by
  induction a generalizing b i with
  | nil => simp at h1
  | cons x a ih =>
    cases b with
    | nil => simp at h2
    | cons y b =>
      cases i with
      | zero => simp
      | succ i =>
        simp only [List.zipWith_cons_cons, List.getD_cons_succ]
        exact ih b i (by simpa using h1) (by simpa using h2)

theorem forall_mem_iff_getD {α : Type} (d : α) (l : List α) (P : α → Prop) :
    (∀ x ∈ l, P x) ↔ ∀ i, i < l.length → P (l.getD i d) := by
  constructor
  · intro h i hi
    apply h
    induction l generalizing i with
    | nil => simp at hi
    | cons x l ih =>
      cases i with
      | zero => simp
      | succ i =>
        simp only [List.getD_cons_succ]
        exact List.mem_cons_of_mem x (ih (by
          intro z hz
          exact h z (List.mem_cons_of_mem x hz)) i (by simpa using hi))
  · intro h x hx
    induction l with
    | nil => simp at hx
    | cons y l ih =>
      rcases List.mem_cons.mp hx with rfl | hx'
      · simpa using h 0 (by simp)
      · exact ih (fun i hi => by simpa using h (i + 1) (by simpa using hi)) hx'

theorem mem_iff_exists_getD {α : Type} (d : α) (l : List α) (x : α) :
    x ∈ l ↔ ∃ i, i < l.length ∧ l.getD i d = x := by
  constructor
  · intro h
    induction l with
    | nil => simp at h
    | cons y l ih =>
      rcases List.mem_cons.mp h with rfl | h'
      · exact ⟨0, by simp, by simp⟩
      · obtain ⟨i, hi, hg⟩ := ih h'
        exact ⟨i + 1, by simpa using hi, by simpa using hg⟩
  · rintro ⟨i, hi, rfl⟩
    induction l generalizing i with
    | nil => simp at hi
    | cons y l ih =>
      cases i with
      | zero => simp
      | succ i =>
        simp only [List.getD_cons_succ]
        exact List.mem_cons_of_mem y (ih i (by simpa using hi))

theorem inBoxb_iff (v : List ℚ) :
    inBoxb v = true ↔ ∀ i, i < v.length → 0 ≤ v.getD i 0 ∧ v.getD i 0 ≤ 1 := by
  unfold inBoxb
  rw [List.all_eq_true]
  rw [show (∀ x ∈ v, (decide (0 ≤ x) && decide (x ≤ 1)) = true) ↔
      (∀ x ∈ v, 0 ≤ x ∧ x ≤ 1) by
    constructor
    · intro h x hx
      have := h x hx
      simp only [Bool.and_eq_true, decide_eq_true_eq] at this
      exact this
    · intro h x hx
      simp only [Bool.and_eq_true, decide_eq_true_eq]
      exact h x hx]
  exact forall_mem_iff_getD 0 v _

theorem slabTime_eq_exitT (x v : ℚ) (hv : v ≠ 0) :
    slabTime true x v = some (exitT x v) := by
  have hval : -(1 / v * (x - 1 / 2)) + |1 / v| * (1 / 2) = exitT x v := by
    unfold exitT
    rcases lt_trichotomy v 0 with hvn | rfl | hvp
    · rw [if_neg (show ¬ (0:ℚ) < v by linarith), abs_of_neg (one_div_neg.mpr hvn)]
      have hnv : -v ≠ 0 := ne_of_gt (by linarith)
      field_simp
      ring
    · exact absurd rfl hv
    · rw [if_pos hvp, abs_of_pos (one_div_pos.mpr hvp)]
      field_simp
      ring
  simp only [slabTime, if_neg hv, if_pos rfl, hval]
  simp

theorem length_axpyV (t : ℚ) (o d : List ℚ) :
    (axpyV t o d).length = min o.length d.length := by
  unfold axpyV
  apply List.length_zipWith

theorem getD_axpyV (t : ℚ) (o d : List ℚ) (i : ℕ) (h1 : i < o.length)
    (h2 : i < d.length) :
    (axpyV t o d).getD i 0 = o.getD i 0 + t * d.getD i 0 := by
  unfold axpyV
  exact getD_zipWith2 0 0 _ o d i h1 h2

theorem clamp01_eq_self (v : List ℚ)
    (h : ∀ i, i < v.length → 0 ≤ v.getD i 0 ∧ v.getD i 0 ≤ 1) : clamp01 v = v := by
  apply eq_of_getD 0
  · simp [clamp01]
  · intro i hi
    have hi' : i < v.length := by simpa [clamp01] using hi
    rw [clamp01, getD_map 0 _ v i hi']
    obtain ⟨h0, h1⟩ := h i hi'
    rw [if_neg (by linarith), if_neg (by linarith)]

/-- Full characterization of `nearest_box_intersection_line` in the forward
direction, for an in-box origin and a direction with a nonzero component. -/
theorem nbil_fwd_spec (o d : List ℚ) (hlen : d.length = o.length)
    (hbox : ∀ i, i < o.length → 0 ≤ o.getD i 0 ∧ o.getD i 0 ≤ 1)
    (hnz : ∃ i, i < o.length ∧ d.getD i 0 ≠ 0) :
    ∃ tF iF,
      nearest_box_intersection_line o d true = some (axpyV tF o d, tF, iF) ∧
      0 ≤ tF ∧
      (∀ i, i < o.length → d.getD i 0 ≠ 0 →
        tF ≤ exitT (o.getD i 0) (d.getD i 0)) ∧
      (∀ i, i ∈ iF ↔ i < o.length ∧ d.getD i 0 ≠ 0 ∧
        exitT (o.getD i 0) (d.getD i 0) = tF) ∧
      iF ≠ [] ∧ iF.Nodup ∧
      (∀ i, i < o.length →
        0 ≤ (axpyV tF o d).getD i 0 ∧ (axpyV tF o d).getD i 0 ≤ 1) := by
  have hboxb : inBoxb o = true := (inBoxb_iff o).mpr hbox
  set ts := List.zipWith (slabTime true) o d with hts
  have htslen : ts.length = o.length := by
    rw [hts, List.length_zipWith, hlen, min_self]
  have htsget : ∀ i, i < o.length →
      ts.getD i none = slabTime true (o.getD i 0) (d.getD i 0) := by
    intro i hi
    rw [hts]
    exact getD_zipWith2 0 none _ o d i hi (hlen ▸ hi)
  -- the filterMap is nonempty
  obtain ⟨i0, hi0, hd0⟩ := hnz
  have hmem0 : exitT (o.getD i0 0) (d.getD i0 0) ∈ ts.filterMap id := by
    rw [List.mem_filterMap]
    refine ⟨some (exitT (o.getD i0 0) (d.getD i0 0)), ?_, rfl⟩
    rw [mem_iff_exists_getD none]
    exact ⟨i0, htslen ▸ hi0, by rw [htsget i0 hi0, slabTime_eq_exitT _ _ hd0]⟩
  obtain ⟨tF, hmin⟩ := listMinO_isSome (ts.filterMap id)
    (List.ne_nil_of_mem hmem0)
  obtain ⟨htFmem, htFle⟩ := listMinO_spec _ _ hmin
  -- every member of the filterMap is an exit time of a moving axis
  have hmem_char : ∀ q : ℚ, q ∈ ts.filterMap id →
      ∃ i, i < o.length ∧ d.getD i 0 ≠ 0 ∧ exitT (o.getD i 0) (d.getD i 0) = q := by
    intro q hq
    rw [List.mem_filterMap] at hq
    obtain ⟨a, ha, haq⟩ := hq
    cases a with
    | none => simp at haq
    | some q2 =>
      have hq2 : q2 = q := by simpa using haq
      subst hq2
      rw [mem_iff_exists_getD none] at ha
      obtain ⟨i, hi, hgi⟩ := ha
      have hi' : i < o.length := htslen ▸ hi
      rw [htsget i hi'] at hgi
      by_cases hdi : d.getD i 0 = 0
      · rw [slabTime, if_pos hdi] at hgi
        simp at hgi
      · rw [slabTime_eq_exitT _ _ hdi] at hgi
        exact ⟨i, hi', hdi, by simpa using hgi⟩
  obtain ⟨iw, hiw, hdw, hew⟩ := hmem_char tF htFmem
  have htF0 : 0 ≤ tF := by
    rw [← hew]
    exact exitT_nonneg _ _ (hbox iw hiw).1 (hbox iw hiw).2
  have hle : ∀ i, i < o.length → d.getD i 0 ≠ 0 →
      tF ≤ exitT (o.getD i 0) (d.getD i 0) := by
    intro i hi hdi
    apply htFle
    rw [List.mem_filterMap]
    refine ⟨some (exitT (o.getD i 0) (d.getD i 0)), ?_, rfl⟩
    rw [mem_iff_exists_getD none]
    exact ⟨i, htslen ▸ hi, by rw [htsget i hi, slabTime_eq_exitT _ _ hdi]⟩
  -- the point is inside the box
  have hpbox : ∀ i, i < o.length →
      0 ≤ (axpyV tF o d).getD i 0 ∧ (axpyV tF o d).getD i 0 ≤ 1 := by
    intro i hi
    rw [getD_axpyV tF o d i hi (hlen ▸ hi)]
    by_cases hdi : d.getD i 0 = 0
    · rw [hdi]
      simpa using hbox i hi
    · exact exitT_seg _ _ tF hdi (hbox i hi).1 (hbox i hi).2 htF0 (hle i hi hdi)
  -- the crossing-axis set
  set iF := (List.range ts.length).filter
    (fun i => decide (ts.getD i none = some tF)) with hiF
  have hiF_char : ∀ i, i ∈ iF ↔ i < o.length ∧ d.getD i 0 ≠ 0 ∧
      exitT (o.getD i 0) (d.getD i 0) = tF := by
    intro i
    rw [hiF, List.mem_filter, List.mem_range, htslen]
    constructor
    · rintro ⟨hi, hdec⟩
      rw [decide_eq_true_eq] at hdec
      rw [htsget i hi] at hdec
      by_cases hdi : d.getD i 0 = 0
      · rw [slabTime, if_pos hdi] at hdec
        simp at hdec
      · rw [slabTime_eq_exitT _ _ hdi] at hdec
        exact ⟨hi, hdi, by simpa using hdec⟩
    · rintro ⟨hi, hdi, hex⟩
      refine ⟨hi, ?_⟩
      rw [decide_eq_true_eq, htsget i hi, slabTime_eq_exitT _ _ hdi, hex]
  have hiF_ne : iF ≠ [] := by
    apply List.ne_nil_of_mem (a := iw)
    exact (hiF_char iw).mpr ⟨hiw, hdw, hew⟩
  have hiF_nd : iF.Nodup := List.Nodup.filter _ (List.nodup_range _)
  -- the eps guard passes
  have hguard : (axpyV tF o d).all
      (fun x => decide (-(1/1000000 : ℚ) ≤ x) && decide (x ≤ 1 + 1/1000000)) = true := by
    rw [List.all_eq_true]
    intro x hx
    rw [mem_iff_exists_getD 0] at hx
    obtain ⟨i, hi, rfl⟩ := hx
    have hi' : i < o.length := by
      have := hi
      rwa [length_axpyV, hlen, min_self] at this
    obtain ⟨h0, h1⟩ := hpbox i hi'
    simp only [Bool.and_eq_true, decide_eq_true_eq]
    constructor <;> linarith
  -- assemble
  refine ⟨tF, iF, ?_, htF0, hle, hiF_char, hiF_ne, hiF_nd, hpbox⟩
  have hclamp : clamp01 (axpyV tF o d) = axpyV tF o d := by
    apply clamp01_eq_self
    intro i hi
    have hi' : i < o.length := by
      have := hi
      rwa [length_axpyV, hlen, min_self] at this
    exact hpbox i hi'
  unfold nearest_box_intersection_line
  rw [if_neg (not_not_intro hboxb), if_pos rfl, ← hts]
  split
  · next heq =>
      rw [hmin] at heq
      simp at heq
  · next tF2 heq =>
      rw [hmin] at heq
      have htt : tF2 = tF := by
        have := heq
        simp only [Option.some_inj] at this
        exact this.symm
      subst htt
      rw [if_pos hguard, hclamp, ← hiF]

/-- C9 helper fact kept with the geometry lemmas: if the auxiliary loop
returns, its origin was accepted by the in-box assert and some direction
component is nonzero. -/
theorem nbil_fwd_some_inv (o d : List ℚ) (r : List ℚ × ℚ × List ℕ)
    (h : nearest_box_intersection_line o d true = some r) :
    (∀ i, i < o.length → 0 ≤ o.getD i 0 ∧ o.getD i 0 ≤ 1) ∧
    (∃ i, i < min o.length d.length ∧ d.getD i 0 ≠ 0) := by
  unfold nearest_box_intersection_line at h
  by_cases hb : inBoxb o = true
  · constructor
    · exact (inBoxb_iff o).mp hb
    · rw [if_neg (not_not_intro hb), if_pos rfl] at h
      cases hm : listMinO ((List.zipWith (slabTime true) o d).filterMap id) with
      | none =>
        rw [hm] at h
        simp at h
      | some tF =>
        obtain ⟨hmem, -⟩ := listMinO_spec _ _ hm
        rw [List.mem_filterMap] at hmem
        obtain ⟨a, ha, haq⟩ := hmem
        cases a with
        | none => simp at haq
        | some q2 =>
          rw [mem_iff_exists_getD none] at ha
          obtain ⟨i, hi, hgi⟩ := ha
          have hilen : i < min o.length d.length := by
            rwa [List.length_zipWith] at hi
          refine ⟨i, hilen, ?_⟩
          intro hdi
          rw [getD_zipWith2 0 none _ o d i (lt_of_lt_of_le hilen (min_le_left _ _))
            (lt_of_lt_of_le hilen (min_le_right _ _)), slabTime, if_pos hdi] at hgi
          simp at hgi
  · rw [if_pos (fun hc => hb hc)] at h
    simp at h

/-- If the auxiliary loop returns, its origin is inside the box and some
direction component is nonzero. -/
theorem lswrAux_some_inv (wrapped : Option (List Bool)) (fuel : ℕ)
    (refl : List Bool) (o d : List ℚ) (tleft : ℚ) (r : List ℚ × List ℚ)
    (h : lswrAux wrapped fuel refl o d tleft = some r) :
    (∀ i, i < o.length → 0 ≤ o.getD i 0 ∧ o.getD i 0 ≤ 1) ∧
    (∃ i, i < min o.length d.length ∧ d.getD i 0 ≠ 0) := by
  cases fuel with
  | zero => simp [lswrAux] at h
  | succ fuel =>
    rw [lswrAux] at h
    cases hn : nearest_box_intersection_line o d true with
    | none =>
      rw [hn] at h
      simp at h
    | some ptiF => exact nbil_fwd_some_inv o d ptiF hn

/-! ## Termination measure and total correctness of the reflecting loop -/

/-- Number of wall crossings that coordinate `x` moving at velocity `v` still
has ahead of it within remaining time `tl`. -/
def axCount (x v tl : ℚ) : ℕ :=
  if v = 0 then 0
  else if tl ≤ exitT x v then 0
  else (⌊(tl - exitT x v) * |v|⌋).toNat + 1

/-- Total number of remaining wall crossings: the loop's termination
measure. -/
def measureN (o d : List ℚ) (tl : ℚ) : ℕ :=
  ((List.range o.length).map (fun i => axCount (o.getD i 0) (d.getD i 0) tl)).sum

theorem axCount_shift (x v tF tl : ℚ) :
    axCount (x + tF * v) v (tl - tF) = axCount x v tl := by
  unfold axCount
  by_cases hv : v = 0
  · rw [if_pos hv, if_pos hv]
  · rw [if_neg hv, if_neg hv, exitT_shift x v tF hv]
    have harg : tl - tF - (exitT x v - tF) = tl - exitT x v := by ring
    by_cases hc : tl ≤ exitT x v
    · rw [if_pos (by linarith), if_pos hc]
    · rw [if_neg (fun hcc => hc (by linarith)), if_neg hc, harg]

theorem axCount_cross (x v tl : ℚ) (hv : v ≠ 0) (h0 : 0 ≤ x) (h1 : x ≤ 1)
    (hev : exitT x v < tl) :
    axCount (wallOf v) (-v) (tl - exitT x v) < axCount x v tl := by
  have hvabs : (0:ℚ) < |v| := abs_pos.mpr hv
  unfold axCount
  rw [if_neg hv, if_neg (fun hc => absurd hev (not_lt_of_le hc))]
  rw [if_neg (neg_ne_zero.mpr hv), exitT_after_flip v hv, abs_neg]
  set q := (tl - exitT x v) * |v| with hq
  have hq1 : 0 < q := by
    rw [hq]
    exact mul_pos (by linarith) hvabs
  by_cases hc : tl - exitT x v ≤ 1 / |v|
  · rw [if_pos hc]
    omega
  · rw [if_neg hc]
    have hqgt : 1 < q := by
      rw [hq]
      have : 1 / |v| < tl - exitT x v := lt_of_not_le hc
      calc (1:ℚ) = (1 / |v|) * |v| := by field_simp
        _ < (tl - exitT x v) * |v| := by
            apply mul_lt_mul_of_pos_right this hvabs
    have harg : (tl - exitT x v - 1 / |v|) * |v| = q - 1 := by
      rw [hq]
      field_simp
    rw [harg]
    have hfl : ⌊q - (1:ℚ)⌋ = ⌊q⌋ - 1 := by
      have := Int.floor_sub_int q (1 : ℤ)
      simpa using this
    have hfl1 : 1 ≤ ⌊q⌋ := by
      rw [Int.le_floor]
      push_cast
      linarith
    rw [hfl]
    omega

theorem sum_map_le_sum_map {α : Type} (l : List α) (f g : α → ℕ)
    (hle : ∀ x ∈ l, f x ≤ g x) : (l.map f).sum ≤ (l.map g).sum := by
  induction l with
  | nil => simp
  | cons x l ih =>
    simp only [List.map_cons, List.sum_cons]
    have h1 := hle x (by simp)
    have h2 := ih (fun y hy => hle y (by simp [hy]))
    omega

theorem sum_map_lt_sum_map {α : Type} (l : List α) (f g : α → ℕ)
    (hle : ∀ x ∈ l, f x ≤ g x) (hlt : ∃ x ∈ l, f x < g x) :
    (l.map f).sum < (l.map g).sum := by
  induction l with
  | nil => simp at hlt
  | cons x l ih =>
    simp only [List.map_cons, List.sum_cons]
    obtain ⟨y, hy, hylt⟩ := hlt
    rcases List.mem_cons.mp hy with h | h
    · have h1 : f x < g x := h ▸ hylt
      have h2 := sum_map_le_sum_map l f g (fun z hz => hle z (by simp [hz]))
      omega
    · have h1 := hle x (by simp)
      have h2 := ih (fun z hz => hle z (by simp [hz])) ⟨y, h, hylt⟩
      omega

/-- One-step unfolding of the loop once the box intersection is known. -/
theorem lswrAux_succ_eq (wrapped : Option (List Bool)) (fuel : ℕ)
    (refl : List Bool) (o d : List ℚ) (tleft : ℚ) (p : List ℚ) (t : ℚ)
    (iF : List ℕ)
    (hn : nearest_box_intersection_line o d true = some (p, t, iF)) :
    lswrAux wrapped (fuel + 1) refl o d tleft =
      if 0 ≤ t then
        if tleft ≤ t then
          if inBoxb (axpyV tleft o d) then some (axpyV tleft o d, d) else none
        else
          match wrapped with
          | none => lswrAux none fuel refl p (flipAt iF d) (tleft - t)
          | some w =>
            if iF.any (fun i => refl.getD i false && w.getD i false) then
              some (p, d)
            else
              if iF.all (fun i => decide (p.getD i 0 = 0) || decide (p.getD i 0 = 1))
              then lswrAux (some w) fuel (setTrueAt iF refl)
                (wrapPosAt w iF p) (wrapDirAt w iF d) (tleft - t)
              else none
      else none := by
  rw [lswrAux, hn]

/-- Fuel monotonicity: a successful run stays successful (with the same
value) on more fuel. -/
theorem lswrAux_mono (wrapped : Option (List Bool)) (f1 f2 : ℕ)
    (hf : f1 ≤ f2) :
    ∀ refl o d tleft r, lswrAux wrapped f1 refl o d tleft = some r →
      lswrAux wrapped f2 refl o d tleft = some r := by
  induction f1 generalizing f2 with
  | zero => intro refl o d tleft r h; simp [lswrAux] at h
  | succ f1 ih =>
    intro refl o d tleft r h
    obtain ⟨f2', rfl⟩ : ∃ f2', f2 = f2' + 1 := ⟨f2 - 1, by omega⟩
    have hf' : f1 ≤ f2' := by omega
    cases hn : nearest_box_intersection_line o d true with
    | none =>
      rw [lswrAux, hn] at h
      simp at h
    | some ptiF =>
      obtain ⟨p, t, iF⟩ := ptiF
      rw [lswrAux_succ_eq wrapped f1 refl o d tleft p t iF hn] at h
      rw [lswrAux_succ_eq wrapped f2' refl o d tleft p t iF hn]
      by_cases ht0 : 0 ≤ t
      · rw [if_pos ht0] at h ⊢
        by_cases hstop : tleft ≤ t
        · rw [if_pos hstop] at h ⊢
          exact h
        · rw [if_neg hstop] at h ⊢
          cases wrapped with
          | none => exact ih f2' hf' _ _ _ _ _ h
          | some w =>
            have h2 : (if iF.any (fun i => refl.getD i false && w.getD i false) then
                some (p, d)
              else
                if iF.all (fun i => decide (p.getD i 0 = 0) || decide (p.getD i 0 = 1))
                then lswrAux (some w) f1 (setTrueAt iF refl)
                  (wrapPosAt w iF p) (wrapDirAt w iF d) (tleft - t)
                else none) = some r := h
            show (if iF.any (fun i => refl.getD i false && w.getD i false) then
                some (p, d)
              else
                if iF.all (fun i => decide (p.getD i 0 = 0) || decide (p.getD i 0 = 1))
                then lswrAux (some w) f2' (setTrueAt iF refl)
                  (wrapPosAt w iF p) (wrapDirAt w iF d) (tleft - t)
                else none) = some r
            by_cases hterm : (iF.any fun i => refl.getD i false && w.getD i false) = true
            · rw [if_pos hterm] at h2 ⊢
              exact h2
            · rw [if_neg hterm] at h2 ⊢
              by_cases hwall : (iF.all fun i => decide (p.getD i 0 = 0) ||
                  decide (p.getD i 0 = 1)) = true
              · rw [if_pos hwall] at h2 ⊢
                exact ih f2' hf' _ _ _ _ _ h2
              · rw [if_neg hwall] at h2
                exact absurd h2 (by simp)
      · rw [if_neg ht0] at h
        exact absurd h (by simp)

/-- Closed form of the loop state. -/
def stateCFpos (o d : List ℚ) (t : ℚ) : List ℚ :=
  List.zipWith (fun x u => foldPos (x + t * u)) o d

/-- Closed form of the loop direction. -/
def stateCFdir (o d : List ℚ) (t : ℚ) : List ℚ :=
  List.zipWith (fun x u => dirFold u (x + t * u)) o d

theorem length_stateCFpos (o d : List ℚ) (t : ℚ) :
    (stateCFpos o d t).length = min o.length d.length := by
  unfold stateCFpos
  apply List.length_zipWith

theorem length_stateCFdir (o d : List ℚ) (t : ℚ) :
    (stateCFdir o d t).length = min o.length d.length := by
  unfold stateCFdir
  apply List.length_zipWith

theorem getD_stateCFpos (o d : List ℚ) (t : ℚ) (i : ℕ) (h1 : i < o.length)
    (h2 : i < d.length) :
    (stateCFpos o d t).getD i 0 = foldPos (o.getD i 0 + t * d.getD i 0) := by
  unfold stateCFpos
  exact getD_zipWith2 0 0 _ o d i h1 h2

theorem getD_stateCFdir (o d : List ℚ) (t : ℚ) (i : ℕ) (h1 : i < o.length)
    (h2 : i < d.length) :
    (stateCFdir o d t).getD i 0 = dirFold (d.getD i 0) (o.getD i 0 + t * d.getD i 0) := by
  unfold stateCFdir
  exact getD_zipWith2 0 0 _ o d i h1 h2

/-- Total correctness of the pure-reflection loop: with fuel exceeding the
crossing-count measure it terminates and computes the componentwise folded
closed form. -/
theorem lswrAux_total (fuel : ℕ) :
    ∀ (o d : List ℚ) (tleft : ℚ) (refl : List Bool),
    d.length = o.length →
    (∀ i, i < o.length → 0 ≤ o.getD i 0 ∧ o.getD i 0 ≤ 1) →
    (∃ i, i < o.length ∧ d.getD i 0 ≠ 0) →
    0 < tleft →
    measureN o d tleft < fuel →
    lswrAux none fuel refl o d tleft =
      some (stateCFpos o d tleft, stateCFdir o d tleft) := by
  induction fuel with
  | zero =>
    intro o d tleft refl hlen hbox hnz ht hmeas
    omega
  | succ fuel ih =>
    intro o d tleft refl hlen hbox hnz ht hmeas
    obtain ⟨tF, iF, hnb, htF0, hle, hchar, hne, hnd, hpbox⟩ :=
      nbil_fwd_spec o d hlen hbox hnz
    rw [lswrAux_succ_eq none fuel refl o d tleft _ _ _ hnb, if_pos htF0]
    by_cases hstop : tleft ≤ tF
    · -- final segment
      rw [if_pos hstop]
      have hseg : ∀ i, i < o.length →
          0 ≤ (axpyV tleft o d).getD i 0 ∧ (axpyV tleft o d).getD i 0 ≤ 1 := by
        intro i hi
        rw [getD_axpyV tleft o d i hi (hlen ▸ hi)]
        by_cases hdi : d.getD i 0 = 0
        · rw [hdi]
          simpa using hbox i hi
        · exact exitT_seg _ _ tleft hdi (hbox i hi).1 (hbox i hi).2
            (le_of_lt ht) (le_trans hstop (hle i hi hdi))
      have hsegb : inBoxb (axpyV tleft o d) = true := by
        rw [inBoxb_iff]
        intro i hi
        apply hseg
        have := hi
        rwa [length_axpyV, hlen, min_self] at this
      rw [if_pos hsegb]
      have hlenp : (axpyV tleft o d).length = o.length := by
        rw [length_axpyV, hlen, min_self]
      congr 1
      rw [Prod.mk.injEq]
      constructor
      · -- positions
        apply eq_of_getD 0 _ _ (by
          rw [hlenp, length_stateCFpos, hlen, min_self])
        intro i hi
        have hi' : i < o.length := hlenp ▸ hi
        rw [getD_axpyV tleft o d i hi' (hlen ▸ hi'),
          getD_stateCFpos o d tleft i hi' (hlen ▸ hi')]
        have := axis_final_seg (o.getD i 0) (d.getD i 0) tleft (hbox i hi').1
          (hbox i hi').2 ht (fun hdi => le_trans hstop (hle i hi' hdi))
        exact this.1.symm
      · -- directions
        apply eq_of_getD 0 _ _ (by
          rw [length_stateCFdir, hlen, min_self])
        intro i hi
        have hi' : i < o.length := hlen ▸ hi
        rw [getD_stateCFdir o d tleft i hi' (hlen ▸ hi')]
        have := axis_final_seg (o.getD i 0) (d.getD i 0) tleft (hbox i hi').1
          (hbox i hi').2 ht (fun hdi => le_trans hstop (hle i hi' hdi))
        exact this.2.symm
    · -- an event: step to the wall, flip the crossing axes, recurse
      rw [if_neg hstop]
      have htev : tF < tleft := lt_of_not_le hstop
      set p := axpyV tF o d with hp
      set d2 := flipAt iF d with hd2
      have hlenp : p.length = o.length := by
        rw [hp, length_axpyV, hlen, min_self]
      have hlend2 : d2.length = d.length := by
        rw [hd2, flipAt, length_updAt]
      have hgetp : ∀ i, i < o.length → p.getD i 0 = o.getD i 0 + tF * d.getD i 0 := by
        intro i hi
        rw [hp]
        exact getD_axpyV tF o d i hi (hlen ▸ hi)
      have hgetd2 : ∀ i, d2.getD i 0 =
          if i ∈ iF ∧ i < d.length then -(d.getD i 0) else d.getD i 0 := by
        intro i
        rw [hd2, flipAt, getD_updAt 0 _ iF d hnd i]
      -- crossing axes sit exactly on their wall with exit time tF
      have hcrosswall : ∀ i, i ∈ iF → p.getD i 0 = wallOf (d.getD i 0) := by
        intro i hiF
        obtain ⟨hi, hdi, hex⟩ := (hchar i).mp hiF
        rw [hgetp i hi, ← hex]
        exact exitT_wall _ _ hdi
      show lswrAux none fuel refl p d2 (tleft - tF) = _
      have hbox2 : ∀ i, i < p.length → 0 ≤ p.getD i 0 ∧ p.getD i 0 ≤ 1 := by
        intro i hi
        exact hp ▸ hpbox i (hlenp ▸ hi)
      have hnz2 : ∃ i, i < p.length ∧ d2.getD i 0 ≠ 0 := by
        obtain ⟨i0, hi0, hd0⟩ := hnz
        refine ⟨i0, hlenp ▸ hi0, ?_⟩
        rw [hgetd2 i0]
        by_cases hin : i0 ∈ iF ∧ i0 < d.length
        · rw [if_pos hin]
          simpa using hd0
        · rw [if_neg hin]
          exact hd0
      have hlen2 : d2.length = p.length := by rw [hlend2, hlen, hlenp]
      have hmeas2 : measureN p d2 (tleft - tF) < fuel := by
        have hlt : measureN p d2 (tleft - tF) < measureN o d tleft := by
          unfold measureN
          rw [hlenp]
          apply sum_map_lt_sum_map
          · intro i hi
            rw [List.mem_range] at hi
            rw [hgetp i hi, hgetd2 i]
            by_cases hin : i ∈ iF ∧ i < d.length
            · rw [if_pos hin]
              obtain ⟨-, hdi, hex⟩ := (hchar i).mp hin.1
              rw [show o.getD i 0 + tF * d.getD i 0 = wallOf (d.getD i 0) by
                rw [← hex]; exact exitT_wall _ _ hdi]
              rw [← hex]
              exact le_of_lt (axCount_cross _ _ tleft hdi (hbox i hi).1
                (hbox i hi).2 (hex ▸ htev))
            · rw [if_neg hin]
              rw [show o.getD i 0 + tF * d.getD i 0 = o.getD i 0 + tF * d.getD i 0 from rfl]
              exact le_of_eq (axCount_shift _ _ tF tleft)
          · obtain ⟨iw, hiwchar⟩ := List.exists_mem_of_ne_nil iF hne
            obtain ⟨hiw, hdw, hexw⟩ := (hchar iw).mp hiwchar
            refine ⟨iw, List.mem_range.mpr hiw, ?_⟩
            rw [hgetp iw hiw, hgetd2 iw, if_pos ⟨hiwchar, hlen ▸ hiw⟩]
            rw [show o.getD iw 0 + tF * d.getD iw 0 = wallOf (d.getD iw 0) by
              rw [← hexw]; exact exitT_wall _ _ hdw]
            rw [← hexw]
            exact axCount_cross _ _ tleft hdw (hbox iw hiw).1 (hbox iw hiw).2
              (hexw ▸ htev)
        omega
      rw [ih p d2 (tleft - tF) refl hlen2 hbox2 hnz2 (by linarith) hmeas2]
      -- the closed form is invariant through the event
      congr 1
      rw [Prod.mk.injEq]
      constructor
      · apply eq_of_getD 0 _ _ (by
          rw [length_stateCFpos, length_stateCFpos, hlen2, hlenp, hlen])
        intro i hi
        have hi' : i < o.length := by
          rwa [length_stateCFpos, hlen2, hlenp, min_self] at hi
        rw [getD_stateCFpos p d2 _ i (hlenp ▸ hi') (by rw [hlen2, hlenp]; exact hi'),
          getD_stateCFpos o d tleft i hi' (hlen ▸ hi'),
          hgetp i hi', hgetd2 i]
        by_cases hin : i ∈ iF ∧ i < d.length
        · rw [if_pos hin]
          obtain ⟨-, hdi, hex⟩ := (hchar i).mp hin.1
          rw [show o.getD i 0 + tF * d.getD i 0 = wallOf (d.getD i 0) by
            rw [← hex]; exact exitT_wall _ _ hdi]
          rw [← hex]
          exact (axis_event_cross _ _ tleft hdi (hbox i hi').1 (hbox i hi').2).1
        · rw [if_neg hin]
          congr 1
          ring
      · apply eq_of_getD 0 _ _ (by
          rw [length_stateCFdir, length_stateCFdir, hlen2, hlenp, hlen])
        intro i hi
        have hi' : i < o.length := by
          rwa [length_stateCFdir, hlen2, hlenp, min_self] at hi
        rw [getD_stateCFdir p d2 _ i (hlenp ▸ hi') (by rw [hlen2, hlenp]; exact hi'),
          getD_stateCFdir o d tleft i hi' (hlen ▸ hi'),
          hgetp i hi', hgetd2 i]
        by_cases hin : i ∈ iF ∧ i < d.length
        · rw [if_pos hin]
          obtain ⟨-, hdi, hex⟩ := (hchar i).mp hin.1
          rw [show o.getD i 0 + tF * d.getD i 0 = wallOf (d.getD i 0) by
            rw [← hex]; exact exitT_wall _ _ hdi]
          rw [← hex]
          exact (axis_event_cross _ _ tleft hdi (hbox i hi').1 (hbox i hi').2).2
        · rw [if_neg hin]
          congr 1
          ring

/-! ## Partial correctness and the round trip -/

theorem length_negV (v : List ℚ) : (negV v).length = v.length := by
  simp [negV]

theorem getD_negV (v : List ℚ) (i : ℕ) (h : i < v.length) :
    (negV v).getD i 0 = -(v.getD i 0) := by
  unfold negV
  exact getD_map 0 _ v i h

theorem negV_negV (v : List ℚ) : negV (negV v) = v := by
  simp [negV]

theorem dirFold_ne_zero (v y : ℚ) (hv : v ≠ 0) : dirFold v y ≠ 0 := by
  unfold dirFold
  rcases lt_trichotomy v 0 with hvn | rfl | hvp
  · rw [if_neg (show ¬ (0:ℚ) < v by linarith), if_pos hvn]
    split
    · exact hv
    · simpa using hv
  · exact absurd rfl hv
  · rw [if_pos hvp]
    split
    · exact hv
    · simpa using hv

/-- Partial correctness: any successful run of the pure-reflection loop with
positive remaining time computes the folded closed form. -/
theorem lswrAux_partial (fuel : ℕ) (refl : List Bool) (o d : List ℚ) (tleft : ℚ)
    (p e : List ℚ) (hlen : d.length = o.length) (ht : 0 < tleft)
    (h : lswrAux none fuel refl o d tleft = some (p, e)) :
    p = stateCFpos o d tleft ∧ e = stateCFdir o d tleft := by
  obtain ⟨hbox, i0, hi0, hd0⟩ := lswrAux_some_inv none fuel refl o d tleft (p, e) h
  have hnz : ∃ i, i < o.length ∧ d.getD i 0 ≠ 0 :=
    ⟨i0, lt_of_lt_of_le hi0 (min_le_left _ _), hd0⟩
  have htot := lswrAux_total (measureN o d tleft + 1) o d tleft refl hlen hbox hnz ht
    (by omega)
  have h1 := lswrAux_mono none fuel (max fuel (measureN o d tleft + 1))
    (le_max_left _ _) refl o d tleft (p, e) h
  have h2 := lswrAux_mono none (measureN o d tleft + 1)
    (max fuel (measureN o d tleft + 1)) (le_max_right _ _) refl o d tleft _ htot
  rw [h1] at h2
  have := Option.some_inj.mp h2
  exact ⟨congrArg Prod.fst this, congrArg Prod.snd this⟩

/-- Round trip of the auxiliary loop for positive time and strictly interior
start. -/
theorem lswrAux_roundtrip (fuel : ℕ) (refl refl2 : List Bool) (x w : List ℚ)
    (tau : ℚ) (p e : List ℚ)
    (hlen : w.length = x.length)
    (hint : ∀ i, i < x.length → 0 < x.getD i 0 ∧ x.getD i 0 < 1)
    (htau : 0 < tau)
    (h : lswrAux none fuel refl x w tau = some (p, e)) :
    ∃ fuel2, lswrAux none fuel2 refl2 p (negV e) tau = some (x, negV w) := by
  have hbox : ∀ i, i < x.length → 0 ≤ x.getD i 0 ∧ x.getD i 0 ≤ 1 := by
    intro i hi
    obtain ⟨h1, h2⟩ := hint i hi
    exact ⟨le_of_lt h1, le_of_lt h2⟩
  obtain ⟨hpcf, hecf⟩ := lswrAux_partial fuel refl x w tau p e hlen htau h
  obtain ⟨-, i0, hi0, hd0⟩ := lswrAux_some_inv none fuel refl x w tau (p, e) h
  have hi0' : i0 < x.length := lt_of_lt_of_le hi0 (min_le_left _ _)
  -- lengths of the arrival state
  have hplen : p.length = x.length := by
    rw [hpcf, length_stateCFpos, hlen, min_self]
  have helen : e.length = x.length := by
    rw [hecf, length_stateCFdir, hlen, min_self]
  have hgetp : ∀ i, i < x.length →
      p.getD i 0 = foldPos (x.getD i 0 + tau * w.getD i 0) := by
    intro i hi
    rw [hpcf]
    exact getD_stateCFpos x w tau i hi (hlen ▸ hi)
  have hgete : ∀ i, i < x.length →
      e.getD i 0 = dirFold (w.getD i 0) (x.getD i 0 + tau * w.getD i 0) := by
    intro i hi
    rw [hecf]
    exact getD_stateCFdir x w tau i hi (hlen ▸ hi)
  have hbox2 : ∀ i, i < p.length → 0 ≤ p.getD i 0 ∧ p.getD i 0 ≤ 1 := by
    intro i hi
    rw [hgetp i (hplen ▸ hi)]
    exact ⟨foldPos_nonneg _, foldPos_le_one _⟩
  have hlen2 : (negV e).length = p.length := by
    rw [length_negV, helen, hplen]
  have hnz2 : ∃ i, i < p.length ∧ (negV e).getD i 0 ≠ 0 := by
    refine ⟨i0, hplen ▸ hi0', ?_⟩
    rw [getD_negV e i0 (helen ▸ hi0'), hgete i0 hi0']
    simpa using dirFold_ne_zero _ _ hd0
  refine ⟨measureN p (negV e) tau + 1, ?_⟩
  rw [lswrAux_total (measureN p (negV e) tau + 1) p (negV e) tau refl2 hlen2
    hbox2 hnz2 htau (by omega)]
  congr 1
  rw [Prod.mk.injEq]
  constructor
  · apply eq_of_getD 0 _ _ (by
      rw [length_stateCFpos, hlen2, hplen, min_self])
    intro i hi
    have hi' : i < x.length := by
      rwa [length_stateCFpos, hlen2, hplen, min_self] at hi
    rw [getD_stateCFpos p (negV e) tau i (hplen ▸ hi')
      (by rw [hlen2, hplen]; exact hi')]
    rw [hgetp i hi', getD_negV e i (helen ▸ hi'), hgete i hi']
    exact (axis_roundtrip (x.getD i 0) (w.getD i 0) tau (hint i hi').1
      (hint i hi').2).1
  · apply eq_of_getD 0 _ _ (by
      rw [length_stateCFdir, hlen2, hplen, min_self, length_negV, hlen])
    intro i hi
    have hi' : i < x.length := by
      rwa [length_stateCFdir, hlen2, hplen, min_self] at hi
    rw [getD_stateCFdir p (negV e) tau i (hplen ▸ hi')
      (by rw [hlen2, hplen]; exact hi')]
    rw [getD_negV w i (hlen ▸ hi')]
    rw [hgetp i hi', getD_negV e i (helen ▸ hi'), hgete i hi']
    exact (axis_roundtrip (x.getD i 0) (w.getD i 0) tau (hint i hi').1
      (hint i hi').2).2

/-- C4, main theorem. -/
theorem claim_C4_roundtrip (fuel : ℕ) (x v : List ℚ) (t : ℚ) (p e : List ℚ)
    (hlen : v.length = x.length)
    (hint : ∀ i, i < x.length → 0 < x.getD i 0 ∧ x.getD i 0 < 1)
    (h : linear_steps_with_reflection none fuel x v t = some (p, e)) :
    ∃ fuel2, linear_steps_with_reflection none fuel2 p (negV e) t
      = some (x, negV v) := by
  by_cases ht0 : t = 0
  · subst ht0
    unfold linear_steps_with_reflection at h
    rw [if_pos rfl] at h
    obtain ⟨hp, he⟩ : p = x ∧ e = v := by
      have := Option.some_inj.mp h
      exact ⟨(congrArg Prod.fst this).symm, (congrArg Prod.snd this).symm⟩
    subst hp
    subst he
    exact ⟨0, by rw [linear_steps_with_reflection, if_pos rfl]⟩
  · by_cases htneg : t < 0
    · unfold linear_steps_with_reflection at h
      rw [if_neg ht0, if_pos htneg] at h
      cases hinner : lswrAux none fuel (List.replicate x.length false) x (negV v) (-t) with
      | none =>
        rw [hinner] at h
        simp at h
      | some pe =>
        obtain ⟨p0, nd⟩ := pe
        rw [hinner] at h
        have hpe : p = p0 ∧ e = negV nd := by
          have := Option.some_inj.mp h
          exact ⟨(congrArg Prod.fst this).symm, (congrArg Prod.snd this).symm⟩
        obtain ⟨hp1, he1⟩ := hpe
        subst hp1
        subst he1
        obtain ⟨fuel2, hrt⟩ := lswrAux_roundtrip fuel
          (List.replicate x.length false) (List.replicate p.length false)
          x (negV v) (-t) p nd (by rw [length_negV]; exact hlen) hint
          (by linarith) hinner
        refine ⟨fuel2, ?_⟩
        rw [linear_steps_with_reflection, if_neg ht0, if_pos htneg]
        rw [negV_negV, hrt, negV_negV]
    · have htpos : 0 < t := lt_of_le_of_ne (le_of_not_lt htneg) (Ne.symm ht0)
      unfold linear_steps_with_reflection at h
      rw [if_neg ht0, if_neg htneg] at h
      obtain ⟨fuel2, hrt⟩ := lswrAux_roundtrip fuel
        (List.replicate x.length false) (List.replicate p.length false)
        x v t p e hlen hint htpos h
      refine ⟨fuel2, ?_⟩
      rw [linear_steps_with_reflection, if_neg ht0, if_neg htneg]
      exact hrt

/-- C4, witness: a concrete one-bounce forward run and its reversal. -/
theorem claim_C4_roundtrip_witness :
    ∃ fuel2, linear_steps_with_reflection none fuel2 [5/6] (negV [-2/3]) 1
      = some ([1/2], negV [2/3]) :=
  claim_C4_roundtrip 2 [1/2] [2/3] 1 [5/6] [-2/3] (by simp)
    (by
      intro i hi
      simp only [List.length_cons, List.length_nil] at hi
      have h0 : i = 0 := by omega
      subst h0
      norm_num [List.getD])
    (by
      norm_num [linear_steps_with_reflection, lswrAux,
        nearest_box_intersection_line, slabTime, inBoxb, listMinO, axpyV,
        clamp01, flipAt, updAt, List.set, List.filterMap, List.range,
        List.range.loop, List.filter_cons, List.filter_nil, List.getD,
        List.zipWith, List.foldl, List.all_cons, List.all_nil,
        Option.some.injEq, abs_of_pos, abs_of_neg])

/-- C9: for direction `(1,0)` from origin `(0.5,0.5)`, the forward crossing is
`(1,0.5)` at `t = 0.5` with axis set `{0}`, and the backward crossing is
`(0,0.5)` at `t = -0.5` with axis set `{0}`. -/
theorem claim_C9_concrete_intersection :
    nearest_box_intersection_line [1/2, 1/2] [1, 0] true
      = some ([1, 1/2], 1/2, [0]) ∧
    nearest_box_intersection_line [1/2, 1/2] [1, 0] false
      = some ([0, 1/2], -1/2, [0]) := by
  constructor
  · norm_num [nearest_box_intersection_line, slabTime, inBoxb, listMinO,
      listMaxO, axpyV, clamp01, List.filterMap, List.range, List.range.loop,
      List.filter_cons, List.filter_nil, List.getD, List.zipWith, List.foldl,
      List.all_cons, List.all_nil, Option.some.injEq]
    try exact fun h => Option.noConfusion h
  · norm_num [nearest_box_intersection_line, slabTime, inBoxb, listMinO,
      listMaxO, axpyV, clamp01, List.filterMap, List.range, List.range.loop,
      List.filter_cons, List.filter_nil, List.getD, List.zipWith, List.foldl,
      List.all_cons, List.all_nil, Option.some.injEq]
    try exact fun h => Option.noConfusion h

/-! ## C8: reflection preserves the Euclidean norm -/

/-- C8: `reflect` returns `v - 2(v·n)n`, and for a unit normal this preserves
the Euclidean norm of `v`. -/
theorem claim_C8_reflect_norm (v n : List ℚ) (hlen : v.length = n.length)
    (hunit : sumSq n = 1) (hv : sumSq v ≠ 0) :
    reflect v n = List.zipWith (fun vi ni => vi - 2 * dotQ v n * ni) v n ∧
    Real.sqrt ((sumSq (reflect v n) : ℚ) : ℝ)
      = Real.sqrt ((sumSq v : ℚ) : ℝ) := by
  constructor
  · unfold reflect
    simp only [dotQ_comm v n]
  · rw [sumSq_reflect v n hlen hunit]

/-- C8, witness. -/
theorem claim_C8_reflect_norm_witness :
    reflect [(3:ℚ)] [1] = List.zipWith (fun vi ni => vi - 2 * dotQ [(3:ℚ)] [1] * ni)
      [(3:ℚ)] [1] ∧
    Real.sqrt ((sumSq (reflect [(3:ℚ)] [1]) : ℚ) : ℝ)
      = Real.sqrt ((sumSq [(3:ℚ)] : ℚ) : ℝ) :=
  claim_C8_reflect_norm [3] [1] rfl (by norm_num [sumSq, dotQ])
    (by norm_num [sumSq, dotQ])

/-! ## C10: the walk stays in the unit cube and flips only signs -/

theorem length_clamp01 (v : List ℚ) : (clamp01 v).length = v.length := by
  simp [clamp01]

theorem clamp01_mem (v : List ℚ) (i : ℕ) (h : i < v.length) :
    0 ≤ (clamp01 v).getD i 0 ∧ (clamp01 v).getD i 0 ≤ 1 := by
  rw [clamp01, getD_map 0 _ v i h]
  split_ifs with h1 h2
  · norm_num
  · norm_num
  · push_neg at h1 h2
    exact ⟨h1, h2⟩

/-- Shape of a successful box intersection: the returned point is the clamped
`o + t*d` and the axis list has no duplicates. -/
theorem nbil_some_shape (o d : List ℚ) (fwd : Bool) (p : List ℚ) (t : ℚ)
    (iF : List ℕ) (h : nearest_box_intersection_line o d fwd = some (p, t, iF)) :
    p = clamp01 (axpyV t o d) ∧ iF.Nodup := by
  unfold nearest_box_intersection_line at h
  by_cases hb : inBoxb o = true
  · rw [if_neg (not_not_intro hb)] at h
    cases hm : (if fwd then
        listMinO ((List.zipWith (slabTime fwd) o d).filterMap id)
      else listMaxO ((List.zipWith (slabTime fwd) o d).filterMap id)) with
    | none =>
      rw [hm] at h
      simp at h
    | some tF =>
      rw [hm] at h
      have h2 : (if ((axpyV tF o d).all
            (fun x => decide (-(1/1000000 : ℚ) ≤ x) && decide (x ≤ 1 + 1/1000000)))
          then some (clamp01 (axpyV tF o d), tF,
            (List.range (List.zipWith (slabTime fwd) o d).length).filter
              (fun i => decide ((List.zipWith (slabTime fwd) o d).getD i none = some tF)))
          else none) = some (p, t, iF) := h
      clear h
      rename' h2 => h
      by_cases hguard : ((axpyV tF o d).all
          (fun x => decide (-(1/1000000 : ℚ) ≤ x) && decide (x ≤ 1 + 1/1000000))) = true
      · rw [if_pos hguard] at h
        simp only [Option.some_inj, Prod.mk.injEq] at h
        obtain ⟨hp, ht, hiF⟩ := h
        subst ht
        constructor
        · exact hp.symm
        · rw [← hiF]
          exact List.Nodup.filter _ (List.nodup_range _)
      · rw [if_neg hguard] at h
        simp at h
  · rw [if_pos (fun hc => hb hc)] at h
    simp at h

/-- Loop invariant behind C10: any result of the walk (in either wrapping
mode) lies in the unit box, and the direction components only ever change
sign. -/
theorem lswrAux_box_dir (wrapped : Option (List Bool)) (fuel : ℕ) :
    ∀ (refl : List Bool) (o d : List ℚ) (tleft : ℚ) (p e : List ℚ),
    d.length = o.length →
    lswrAux wrapped fuel refl o d tleft = some (p, e) →
    (∀ i, i < p.length → 0 ≤ p.getD i 0 ∧ p.getD i 0 ≤ 1) ∧
    p.length = o.length ∧ e.length = d.length ∧
    (∀ i, i < d.length → e.getD i 0 = d.getD i 0 ∨ e.getD i 0 = -(d.getD i 0)) := by
  induction fuel with
  | zero =>
    intro refl o d tleft p e hlen h
    simp [lswrAux] at h
  | succ fuel ih =>
    intro refl o d tleft p e hlen h
    cases hn : nearest_box_intersection_line o d true with
    | none =>
      rw [lswrAux, hn] at h
      simp at h
    | some ptiF =>
      obtain ⟨p0, t, iF⟩ := ptiF
      obtain ⟨hp0, hiFnd⟩ := nbil_some_shape o d true p0 t iF hn
      have hp0len : p0.length = o.length := by
        rw [hp0, length_clamp01, length_axpyV, hlen, min_self]
      have hp0box : ∀ i, i < p0.length → 0 ≤ p0.getD i 0 ∧ p0.getD i 0 ≤ 1 := by
        intro i hi
        rw [hp0]
        apply clamp01_mem
        rw [← length_clamp01, ← hp0]
        exact hi
      rw [lswrAux_succ_eq wrapped fuel refl o d tleft p0 t iF hn] at h
      by_cases ht0 : 0 ≤ t
      · rw [if_pos ht0] at h
        by_cases hstop : tleft ≤ t
        · rw [if_pos hstop] at h
          by_cases hibox : inBoxb (axpyV tleft o d) = true
          · rw [if_pos hibox] at h
            simp only [Option.some_inj, Prod.mk.injEq] at h
            obtain ⟨hpv, hev⟩ := h
            subst hpv
            subst hev
            refine ⟨?_, ?_, rfl, fun i hi => Or.inl rfl⟩
            · intro i hi
              exact (inBoxb_iff _).mp hibox i hi
            · rw [length_axpyV, hlen, min_self]
          · rw [if_neg hibox] at h
            simp at h
        · rw [if_neg hstop] at h
          cases wrapped with
          | none =>
            have h2 : lswrAux none fuel refl p0 (flipAt iF d) (tleft - t)
                = some (p, e) := h
            have hlen2 : (flipAt iF d).length = p0.length := by
              rw [flipAt, length_updAt, hlen, hp0len]
            obtain ⟨hbox3, hplen3, helen3, hdir3⟩ :=
              ih refl p0 (flipAt iF d) (tleft - t) p e hlen2 h2
            refine ⟨hbox3, by rw [hplen3, hp0len], ?_, ?_⟩
            · rw [helen3, flipAt, length_updAt]
            · intro i hi
              have hi2 : i < (flipAt iF d).length := by
                rwa [flipAt, length_updAt]
              have := hdir3 i hi2
              rw [flipAt, getD_updAt 0 _ iF d hiFnd i] at this
              by_cases hin : i ∈ iF ∧ i < d.length
              · rw [if_pos hin] at this
                rcases this with h3 | h3
                · exact Or.inr h3
                · rw [neg_neg] at h3
                  exact Or.inl h3
              · rw [if_neg hin] at this
                exact this
          | some w =>
            have h2 : (if iF.any (fun i => refl.getD i false && w.getD i false) then
                some (p0, d)
              else
                if iF.all (fun i => decide (p0.getD i 0 = 0) || decide (p0.getD i 0 = 1))
                then lswrAux (some w) fuel (setTrueAt iF refl)
                  (wrapPosAt w iF p0) (wrapDirAt w iF d) (tleft - t)
                else none) = some (p, e) := h
            by_cases hterm : (iF.any fun i => refl.getD i false && w.getD i false) = true
            · rw [if_pos hterm] at h2
              simp only [Option.some_inj, Prod.mk.injEq] at h2
              obtain ⟨hpv, hev⟩ := h2
              subst hpv
              subst hev
              exact ⟨hp0box, hp0len, rfl, fun i hi => Or.inl rfl⟩
            · rw [if_neg hterm] at h2
              by_cases hwall : (iF.all fun i => decide (p0.getD i 0 = 0) ||
                  decide (p0.getD i 0 = 1)) = true
              · rw [if_pos hwall] at h2
                have hlen2 : (wrapDirAt w iF d).length = (wrapPosAt w iF p0).length := by
                  rw [wrapDirAt, length_updAt, wrapPosAt, length_updAt, hlen, hp0len]
                obtain ⟨hbox3, hplen3, helen3, hdir3⟩ :=
                  ih (setTrueAt iF refl) (wrapPosAt w iF p0) (wrapDirAt w iF d)
                    (tleft - t) p e hlen2 h2
                refine ⟨hbox3, ?_, ?_, ?_⟩
                · rw [hplen3, wrapPosAt, length_updAt, hp0len]
                · rw [helen3, wrapDirAt, length_updAt]
                · intro i hi
                  have hi2 : i < (wrapDirAt w iF d).length := by
                    rwa [wrapDirAt, length_updAt]
                  have := hdir3 i hi2
                  rw [wrapDirAt, getD_updAt 0 _ iF d hiFnd i] at this
                  by_cases hin : i ∈ iF ∧ i < d.length
                  · rw [if_pos hin] at this
                    by_cases hw : w.getD i false = true
                    · rw [if_pos hw, mul_one] at this
                      exact this
                    · rw [if_neg hw, mul_neg_one] at this
                      rcases this with h3 | h3
                      · exact Or.inr h3
                      · rw [neg_neg] at h3
                        exact Or.inl h3
                  · rw [if_neg hin] at this
                    exact this
              · rw [if_neg hwall] at h2
                simp at h2
      · rw [if_neg ht0] at h
        simp at h

theorem sumSq_cons (x : ℚ) (xs : List ℚ) : sumSq (x :: xs) = x ^ 2 + sumSq xs := by
  unfold sumSq
  rw [dotQ_cons_cons]
  ring

theorem sumSq_eq_of_pm (a b : List ℚ) (hlen : a.length = b.length)
    (h : ∀ i, i < a.length → a.getD i 0 = b.getD i 0 ∨ a.getD i 0 = -(b.getD i 0)) :
    sumSq a = sumSq b := by
  induction a generalizing b with
  | nil =>
    cases b with
    | nil => rfl
    | cons y b => simp at hlen
  | cons x a ih =>
    cases b with
    | nil => simp at hlen
    | cons y b =>
      rw [sumSq_cons, sumSq_cons]
      have hhead := h 0 (by simp)
      simp only [List.getD_cons_zero] at hhead
      have htail := ih b (by simpa using hlen)
        (fun i hi => by simpa using h (i + 1) (by simpa using hi))
      rcases hhead with h1 | h1 <;> rw [h1, htail] <;> ring

/-- C10: for any in-box origin and direction with a nonzero component, a
returning call of `linear_steps_with_reflection` (any step length, any
wrapping mode) yields a position inside `[0,1]^n` and a direction equal to
the input componentwise up to sign, hence of the same Euclidean norm. -/
theorem claim_C10_box_invariant (wrapped : Option (List Bool)) (fuel : ℕ)
    (o v : List ℚ) (t : ℚ) (p e : List ℚ)
    (hlen : v.length = o.length)
    (hbox : ∀ i, i < o.length → 0 ≤ o.getD i 0 ∧ o.getD i 0 ≤ 1)
    (hnz : ∃ i, i < o.length ∧ v.getD i 0 ≠ 0)
    (h : linear_steps_with_reflection wrapped fuel o v t = some (p, e)) :
    (∀ i, i < p.length → 0 ≤ p.getD i 0 ∧ p.getD i 0 ≤ 1) ∧
    (∀ i, i < v.length → e.getD i 0 = v.getD i 0 ∨ e.getD i 0 = -(v.getD i 0)) ∧
    sumSq e = sumSq v ∧
    Real.sqrt ((sumSq e : ℚ) : ℝ) = Real.sqrt ((sumSq v : ℚ) : ℝ) := by
  have main : (∀ i, i < p.length → 0 ≤ p.getD i 0 ∧ p.getD i 0 ≤ 1) ∧
      e.length = v.length ∧
      (∀ i, i < v.length → e.getD i 0 = v.getD i 0 ∨ e.getD i 0 = -(v.getD i 0)) := by
    unfold linear_steps_with_reflection at h
    by_cases ht0 : t = 0
    · rw [if_pos ht0] at h
      simp only [Option.some_inj, Prod.mk.injEq] at h
      obtain ⟨hpv, hev⟩ := h
      subst hpv
      subst hev
      exact ⟨fun i hi => hbox i hi, rfl, fun i hi => Or.inl rfl⟩
    · rw [if_neg ht0] at h
      by_cases htneg : t < 0
      · rw [if_pos htneg] at h
        cases hinner : lswrAux none fuel (List.replicate o.length false)
            o (negV v) (-t) with
        | none =>
          rw [hinner] at h
          simp at h
        | some pe =>
          obtain ⟨p0, nd⟩ := pe
          rw [hinner] at h
          simp only [Option.some_inj, Prod.mk.injEq] at h
          obtain ⟨hpv, hev⟩ := h
          subst hpv
          subst hev
          have hlen2 : (negV v).length = o.length := by rw [length_negV, hlen]
          obtain ⟨hbox3, hplen3, helen3, hdir3⟩ :=
            lswrAux_box_dir none fuel _ o (negV v) (-t) p0 nd hlen2 hinner
          refine ⟨hbox3, ?_, ?_⟩
          · rw [length_negV, helen3, length_negV]
          · intro i hi
            have hi2 : i < (negV v).length := by rwa [length_negV]
            have := hdir3 i hi2
            rw [getD_negV v i hi] at this
            rw [getD_negV nd i (by rw [helen3]; exact hi2)]
            rcases this with h3 | h3
            · rw [h3]
              exact Or.inl (by ring)
            · rw [h3]
              exact Or.inr (by ring)
      · rw [if_neg htneg] at h
        obtain ⟨hbox3, hplen3, helen3, hdir3⟩ :=
          lswrAux_box_dir wrapped fuel _ o v t p e hlen h
        exact ⟨hbox3, helen3, hdir3⟩
  obtain ⟨h1, h2, h3⟩ := main
  have hsq : sumSq e = sumSq v := sumSq_eq_of_pm e v h2
    (fun i hi => h3 i (h2 ▸ hi))
  exact ⟨h1, h3, hsq, by rw [hsq]⟩

/-- C10, witness: a one-bounce concrete run. -/
theorem claim_C10_box_invariant_witness :
    (∀ i, i < ([(5:ℚ)/6] : List ℚ).length →
      0 ≤ ([(5:ℚ)/6] : List ℚ).getD i 0 ∧ ([(5:ℚ)/6] : List ℚ).getD i 0 ≤ 1) ∧
    (∀ i, i < ([(2:ℚ)/3] : List ℚ).length →
      ([(-2:ℚ)/3] : List ℚ).getD i 0 = ([(2:ℚ)/3] : List ℚ).getD i 0 ∨
      ([(-2:ℚ)/3] : List ℚ).getD i 0 = -(([(2:ℚ)/3] : List ℚ).getD i 0)) ∧
    sumSq [(-2:ℚ)/3] = sumSq [(2:ℚ)/3] ∧
    Real.sqrt ((sumSq [(-2:ℚ)/3] : ℚ) : ℝ) = Real.sqrt ((sumSq [(2:ℚ)/3] : ℚ) : ℝ) :=
  claim_C10_box_invariant none 2 [1/2] [2/3] 1 [5/6] [-2/3] (by simp)
    (by
      intro i hi
      simp only [List.length_cons, List.length_nil] at hi
      have h0 : i = 0 := by omega
      subst h0
      norm_num [List.getD])
    (⟨0, by simp, by norm_num [List.getD]⟩)
    (by
      norm_num [linear_steps_with_reflection, lswrAux,
        nearest_box_intersection_line, slabTime, inBoxb, listMinO, axpyV,
        clamp01, flipAt, updAt, List.set, List.filterMap, List.range,
        List.range.loop, List.filter_cons, List.filter_nil, List.getD,
        List.zipWith, List.foldl, List.all_cons, List.all_nil,
        Option.some.injEq, abs_of_pos, abs_of_neg])

/-! ## Sampling path and contour path (`SamplingPath`, `ContourSamplingPath`) -/

/-- A path point `(i, x, v, L)`; `L = none` is the unknown-likelihood
sentinel (`None` in the source). -/
abbrev PathPoint := ℤ × List ℚ × List ℚ × Option ℚ

/-- Index of a path point. -/
def idxOf (q : PathPoint) : ℤ := q.1

/-- `SamplingPath` state: the point list and the two terminal flags. -/
structure SPath where
  points : List PathPoint
  fwd_possible : Bool
  rwd_possible : Bool
deriving DecidableEq

/-- `SamplingPath.add`: append the tuple. -/
def spAdd (sp : SPath) (i : ℤ) (x v : List ℚ) (L : Option ℚ) : SPath :=
  { sp with points := sp.points ++ [(i, x, v, L)] }

/-- `SamplingPath.reset(x0, v0, L0)`. -/
def spReset (x0 v0 : List ℚ) (L0 : Option ℚ) : SPath :=
  { points := [(0, x0, v0, L0)], fwd_possible := true, rwd_possible := true }

/-- `max(points)` under Python tuple comparison.  With pairwise-distinct
indices this is the point of maximal index; an empty sequence raises, and a
duplicated maximal index compares numpy arrays, which generally raises as
well — both modelled `none`. -/
def maxPointD (pts : List PathPoint) : Option PathPoint :=
  match listMaxO (pts.map idxOf) with
  | none => none
  | some m =>
    match pts.filter (fun q => decide (idxOf q = m)) with
    | [q] => some q
    | _ => none

/-- `min(points)`, same conventions as `maxPointD`. -/
def minPointD (pts : List PathPoint) : Option PathPoint :=
  match listMinO (pts.map idxOf) with
  | none => none
  | some m =>
    match pts.filter (fun q => decide (idxOf q = m)) with
    | [q] => some q
    | _ => none

/-- `SamplingPath.interpolate(i)`.

Returns `(position, direction, likelihood-or-none, on_path)`.  `none` models
the `KeyError` and the `np.allclose` asserts (exact equality over `ℚ`).
Note the success branch at the bottom returns `vj` — the direction stored at
the left neighbour — not the replayed direction `vj1` (line
`return xl, vj, None, True` of the source). -/
def interpolate (fuel : ℕ) (sp : SPath) (i : ℤ) :
    Option (List ℚ × List ℚ × Option ℚ × Bool) :=
  if (sp.points.filter (fun q => decide (i ≤ idxOf q))) = [] ∧
      sp.fwd_possible = false then
    (maxPointD (sp.points.filter (fun q => decide (idxOf q ≤ i)))).map
      (fun q => (q.2.1, q.2.2.1, q.2.2.2, false))
  else if (sp.points.filter (fun q => decide (idxOf q ≤ i))) = [] ∧
      sp.rwd_possible = false then
    (minPointD (sp.points.filter (fun q => decide (i ≤ idxOf q)))).map
      (fun q => (q.2.1, q.2.2.1, q.2.2.2, false))
  else if (sp.points.filter (fun q => decide (idxOf q ≤ i))) = [] ∨
      (sp.points.filter (fun q => decide (i ≤ idxOf q))) = [] then
    none
  else
    match maxPointD (sp.points.filter (fun q => decide (idxOf q ≤ i))),
          minPointD (sp.points.filter (fun q => decide (i ≤ idxOf q))) with
    | some (j, xj, vj, Lj), some (k, xk, vk, _) =>
      if j = i then some (xj, vj, Lj, true)
      else if k = i then none
      else
        match extrapolate_ahead fuel ((i - j : ℤ) : ℚ) xj vj,
              extrapolate_ahead fuel ((i - k : ℤ) : ℚ) xk vk with
        | some (xl1, vj1), some (xl2, vj2) =>
          if xl1 = xl2 ∧ vj1 = vj2 then some (xl1, vj, none, true)
          else none
        | _, _ => none
    | _, _ => none

/-- `SamplingPath.extrapolate(i)`. -/
def spExtrapolate (fuel : ℕ) (sp : SPath) (i : ℤ) : Option (List ℚ × List ℚ) :=
  if 0 ≤ i then
    match maxPointD sp.points with
    | none => none
    | some (j, xj, vj, _) =>
      if 0 < i - j then extrapolate_ahead fuel ((i - j : ℤ) : ℚ) xj vj else none
  else
    match minPointD sp.points with
    | none => none
    | some (j, xj, vj, _) =>
      if i - j < 0 then extrapolate_ahead fuel ((i - j : ℤ) : ℚ) xj vj else none

/-- `ContourSamplingPath` state: the wrapped path, the threshold and the
evaluation counter.  The transform/likelihood callables are passed as
function parameters to the operations. -/
structure CPath where
  spath : SPath
  Lmin : ℚ
  ncalls : ℕ
deriving DecidableEq

/-- `ContourSamplingPath.add_if_above_threshold(i, x, v)`: evaluate the
likelihood once, increment the counter, and record the point only when
`L > Lmin`. -/
def add_if_above_threshold (transform : List ℚ → List ℚ)
    (likelihood : List ℚ → ℚ) (cp : CPath) (i : ℤ) (x v : List ℚ) :
    Bool × CPath :=
  let L := likelihood (transform x)
  if cp.Lmin < L then
    (true, { cp with
              ncalls := cp.ncalls + 1
              spath := spAdd cp.spath i x v (some L) })
  else
    (false, { cp with ncalls := cp.ncalls + 1 })

/-! ## C1: the accept threshold is strict -/

/-- C1, counterexample: at `L = Lmin` (here both `0`) the claimed
`accepted ⟺ L ≥ Lmin` fails — the code rejects and stores nothing. -/
theorem claim_C1_counterexample :
    (fun _ => (0:ℚ)) ((fun (x : List ℚ) => x) [1/2]) ≥
      (⟨spReset [1/2] [1] (some 0), 0, 0⟩ : CPath).Lmin ∧
    (add_if_above_threshold (fun x => x) (fun _ => 0)
      ⟨spReset [1/2] [1] (some 0), 0, 0⟩ 1 [1/2] [1]).1 = false ∧
    (add_if_above_threshold (fun x => x) (fun _ => 0)
      ⟨spReset [1/2] [1] (some 0), 0, 0⟩ 1 [1/2] [1]).2.spath.points
      = (spReset [1/2] [1] (some 0)).points := by
  refine ⟨le_refl 0, ?_, ?_⟩ <;>
    simp [add_if_above_threshold, spReset]

/-- C1, amended: `add_if_above_threshold` accepts exactly when
`L > Lmin` (strictly); on acceptance the point is appended with its
likelihood, on rejection the point list is unchanged, and every point the
operation ever inserts has likelihood strictly above `Lmin`. -/
theorem claim_C1_amended (transform : List ℚ → List ℚ)
    (likelihood : List ℚ → ℚ) (cp : CPath) (i : ℤ) (x v : List ℚ) :
    ((add_if_above_threshold transform likelihood cp i x v).1 = true ↔
      cp.Lmin < likelihood (transform x)) ∧
    ((add_if_above_threshold transform likelihood cp i x v).1 = true →
      (add_if_above_threshold transform likelihood cp i x v).2.spath.points
        = cp.spath.points ++ [(i, x, v, some (likelihood (transform x)))]) ∧
    ((add_if_above_threshold transform likelihood cp i x v).1 = false →
      (add_if_above_threshold transform likelihood cp i x v).2.spath.points
        = cp.spath.points) ∧
    (∀ q ∈ (add_if_above_threshold transform likelihood cp i x v).2.spath.points,
      q ∉ cp.spath.points → ∃ Lq, q.2.2.2 = some Lq ∧ cp.Lmin < Lq) := by
  unfold add_if_above_threshold
  by_cases hL : cp.Lmin < likelihood (transform x)
  · rw [if_pos hL]
    refine ⟨by simpa using hL, fun _ => by simp [spAdd], by simp, ?_⟩
    intro q hq hqn
    simp only [spAdd, List.mem_append, List.mem_singleton] at hq
    rcases hq with hq | hq
    · exact absurd hq hqn
    · subst hq
      exact ⟨likelihood (transform x), rfl, hL⟩
  · rw [if_neg hL]
    refine ⟨by simpa using hL, by simp, fun _ => by simp, ?_⟩
    intro q hq hqn
    simp only at hq
    exact absurd hq hqn

/-- C1, witness: with `L = 1 > Lmin = 0` the call accepts. -/
theorem claim_C1_amended_witness :
    (add_if_above_threshold (fun x => x) (fun _ => 1)
      ⟨spReset [1/2] [1] (some 1), 0, 0⟩ 1 [1/2] [1]).1 = true :=
  (claim_C1_amended (fun x => x) (fun _ => 1)
    ⟨spReset [1/2] [1] (some 1), 0, 0⟩ 1 [1/2] [1]).1.mpr (by norm_num)

/-! ## Nearest-point selection lemmas -/

theorem filter_idx_nil (pts : List PathPoint) (m : ℤ)
    (h : ∀ r ∈ pts, idxOf r ≠ m) :
    pts.filter (fun q => decide (idxOf q = m)) = [] := by
  induction pts with
  | nil => rfl
  | cons a l ih =>
    rw [List.filter_cons]
    rw [if_neg (by simpa using h a (by simp))]
    exact ih (fun r hr => h r (by simp [hr]))

theorem filter_idx_singleton (pts : List PathPoint) (q : PathPoint)
    (hnd : (pts.map idxOf).Nodup) (hq : q ∈ pts) :
    pts.filter (fun r => decide (idxOf r = idxOf q)) = [q] := by
  induction pts with
  | nil => simp at hq
  | cons a l ih =>
    rw [List.map_cons, List.nodup_cons] at hnd
    rcases List.mem_cons.mp hq with h | h
    · subst h
      rw [List.filter_cons, if_pos (by simp)]
      rw [filter_idx_nil l (idxOf q)
        (fun r hr hc => hnd.1 (hc ▸ List.mem_map_of_mem idxOf hr))]
    · have hne : idxOf a ≠ idxOf q := by
        intro hc
        exact hnd.1 (hc ▸ List.mem_map_of_mem idxOf h)
      rw [List.filter_cons, if_neg (by simpa using hne)]
      exact ih hnd.2 h

theorem maxPointD_eq (pts : List PathPoint) (q : PathPoint)
    (hnd : (pts.map idxOf).Nodup) (hq : q ∈ pts)
    (hub : ∀ r ∈ pts, idxOf r ≤ idxOf q) : maxPointD pts = some q := by
  unfold maxPointD
  obtain ⟨m, hm⟩ := listMaxO_isSome (pts.map idxOf)
    (by simp [List.ne_nil_of_mem hq, List.map_eq_nil])
  obtain ⟨hmem, hle⟩ := listMaxO_spec _ _ hm
  obtain ⟨r, hr, hrm⟩ := List.mem_map.mp hmem
  have hqm : m = idxOf q := le_antisymm (hrm ▸ hub r hr)
    (hle _ (List.mem_map_of_mem idxOf hq))
  rw [hm]
  have hflt : pts.filter (fun r => decide (idxOf r = m)) = [q] := by
    rw [hqm]
    exact filter_idx_singleton pts q hnd hq
  show (match pts.filter (fun r => decide (idxOf r = m)) with
    | [q2] => some q2
    | _ => none) = some q
  rw [hflt]

theorem minPointD_eq (pts : List PathPoint) (q : PathPoint)
    (hnd : (pts.map idxOf).Nodup) (hq : q ∈ pts)
    (hlb : ∀ r ∈ pts, idxOf q ≤ idxOf r) : minPointD pts = some q := by
  unfold minPointD
  obtain ⟨m, hm⟩ := listMinO_isSome (pts.map idxOf)
    (by simp [List.ne_nil_of_mem hq, List.map_eq_nil])
  obtain ⟨hmem, hle⟩ := listMinO_spec _ _ hm
  obtain ⟨r, hr, hrm⟩ := List.mem_map.mp hmem
  have hqm : m = idxOf q := le_antisymm (hle _ (List.mem_map_of_mem idxOf hq))
    (hrm ▸ hlb r hr)
  rw [hm]
  have hflt : pts.filter (fun r => decide (idxOf r = m)) = [q] := by
    rw [hqm]
    exact filter_idx_singleton pts q hnd hq
  show (match pts.filter (fun r => decide (idxOf r = m)) with
    | [q2] => some q2
    | _ => none) = some q
  rw [hflt]

/-- Exact hit: `interpolate` returns the stored tuple with `on_path = true`
for any recorded index (no likelihood call is involved: `interpolate` does
not even receive the likelihood function). -/
theorem interpolate_exact_hit (fuel : ℕ) (sp : SPath) (i : ℤ)
    (x v : List ℚ) (L : Option ℚ)
    (hnd : (sp.points.map idxOf).Nodup)
    (hmem : (i, x, v, L) ∈ sp.points) :
    interpolate fuel sp i = some (x, v, L, true) := by
  have hpamem : (i, x, v, L) ∈ sp.points.filter (fun q => decide (i ≤ idxOf q)) :=
    List.mem_filter.mpr ⟨hmem, by simp [idxOf]⟩
  have hpbmem : (i, x, v, L) ∈ sp.points.filter (fun q => decide (idxOf q ≤ i)) :=
    List.mem_filter.mpr ⟨hmem, by simp [idxOf]⟩
  have hpane : sp.points.filter (fun q => decide (i ≤ idxOf q)) ≠ [] :=
    List.ne_nil_of_mem hpamem
  have hpbne : sp.points.filter (fun q => decide (idxOf q ≤ i)) ≠ [] :=
    List.ne_nil_of_mem hpbmem
  have hndb : ((sp.points.filter (fun q => decide (idxOf q ≤ i))).map idxOf).Nodup :=
    List.Nodup.sublist (List.Sublist.map idxOf (List.filter_sublist _)) hnd
  have hnda : ((sp.points.filter (fun q => decide (i ≤ idxOf q))).map idxOf).Nodup :=
    List.Nodup.sublist (List.Sublist.map idxOf (List.filter_sublist _)) hnd
  have hmax : maxPointD (sp.points.filter (fun q => decide (idxOf q ≤ i)))
      = some (i, x, v, L) := by
    apply maxPointD_eq _ _ hndb hpbmem
    intro r hr
    have := (List.mem_filter.mp hr).2
    simpa [idxOf] using this
  have hmin : minPointD (sp.points.filter (fun q => decide (i ≤ idxOf q)))
      = some (i, x, v, L) := by
    apply minPointD_eq _ _ hnda hpamem
    intro r hr
    have := (List.mem_filter.mp hr).2
    simpa [idxOf] using this
  unfold interpolate
  rw [if_neg (fun hc => hpane hc.1), if_neg (fun hc => hpbne hc.1),
    if_neg (by
      rintro (hc | hc)
      · exact hpbne hc
      · exact hpane hc)]
  rw [hmax, hmin]
  show (if i = i then some (x, v, L, true)
    else if i = i then none
    else match extrapolate_ahead fuel ((i - i : ℤ) : ℚ) x v,
          extrapolate_ahead fuel ((i - i : ℤ) : ℚ) x v with
      | some (xl1, vj1), some (xl2, vj2) =>
        if xl1 = xl2 ∧ vj1 = vj2 then some (xl1, v, none, true) else none
      | _, _ => none) = some (x, v, L, true)
  rw [if_pos rfl]

/-! ## C6: there is no likelihood caching -/

/-- C6, counterexample: index `1` is already recorded with a stored
likelihood, yet calling the accept operation at that same index still
increments the evaluation counter (the likelihood is re-invoked). -/
theorem claim_C6_counterexample :
    ((1 : ℤ), [(3:ℚ)/4], [(1:ℚ)], some (2:ℚ)) ∈
      (⟨⟨[((0:ℤ), [(1:ℚ)/2], [(1:ℚ)], some (1:ℚ)),
          ((1:ℤ), [(3:ℚ)/4], [(1:ℚ)], some (2:ℚ))], true, true⟩, 0, 5⟩ :
        CPath).spath.points ∧
    (add_if_above_threshold (fun x => x) (fun p => p.getD 0 0)
      ⟨⟨[((0:ℤ), [(1:ℚ)/2], [(1:ℚ)], some (1:ℚ)),
         ((1:ℤ), [(3:ℚ)/4], [(1:ℚ)], some (2:ℚ))], true, true⟩, 0, 5⟩
      1 [3/4] [1]).2.ncalls = 5 + 1 := by
  constructor
  · simp
  · simp only [add_if_above_threshold]
    split_ifs <;> rfl

/-- C6, amended: `add_if_above_threshold` re-invokes the likelihood and
increments the counter on every call, including at already-evaluated
indices; `interpolate` never invokes the likelihood (it receives no
likelihood function) and an exact hit returns the stored tuple. -/
theorem claim_C6_amended :
    (∀ (transform : List ℚ → List ℚ) (likelihood : List ℚ → ℚ) (cp : CPath)
      (i : ℤ) (x v : List ℚ),
      (add_if_above_threshold transform likelihood cp i x v).2.ncalls
        = cp.ncalls + 1) ∧
    (∀ (fuel : ℕ) (sp : SPath) (i : ℤ) (x v : List ℚ) (L : Option ℚ),
      (sp.points.map idxOf).Nodup → (i, x, v, L) ∈ sp.points →
      interpolate fuel sp i = some (x, v, L, true)) := by
  constructor
  · intro transform likelihood cp i x v
    simp only [add_if_above_threshold]
    split_ifs <;> rfl
  · exact interpolate_exact_hit

/-- C6, witness: an exact hit on a concrete two-point path. -/
theorem claim_C6_amended_witness :
    interpolate 1 ⟨[((0:ℤ), [(1:ℚ)/2], [(1:ℚ)], some (1:ℚ)),
        ((1:ℤ), [(3:ℚ)/4], [(1:ℚ)], some (2:ℚ))], true, true⟩ 1
      = some ([(3:ℚ)/4], [(1:ℚ)], some (2:ℚ), true) :=
  claim_C6_amended.2 1 _ 1 [3/4] [1] (some 2) (by simp [idxOf]) (by simp)

/-! ## C7: the final chain-point draw -/

/-- `NUTSSampler.sample_chain_point(a, b)`: repeatedly draw an index in
`[a,b]` and return the interpolated point once it is on the path.  The
internal `np.random.randint(a, b+1)` draws are modelled by the explicit list
`draws` (the `randint` contract keeps every draw within `[a,b]`); an empty
list of remaining draws models a still-running loop, and `none` from
`interpolate` a crash inside it. -/
def sample_chain_point (fuel : ℕ) (sp : SPath) (a b : ℤ) :
    List ℤ → Option (List ℚ × Option ℚ)
  | [] => none
  | i :: rest =>
    match interpolate fuel sp i with
    | none => none
    | some (xi, _, Li, onpath) =>
      if onpath then some (xi, Li) else sample_chain_point fuel sp a b rest

/-- C7: any value `sample_chain_point(a,b)` returns is the position and
likelihood of an index in `[a,b]` whose interpolation reports
`on_path = true`. -/
theorem claim_C7_sample_chain_point (fuel : ℕ) (sp : SPath) (a b : ℤ)
    (draws : List ℤ) (x : List ℚ) (L : Option ℚ)
    (hdraws : ∀ d ∈ draws, a ≤ d ∧ d ≤ b)
    (h : sample_chain_point fuel sp a b draws = some (x, L)) :
    ∃ i v, a ≤ i ∧ i ≤ b ∧ interpolate fuel sp i = some (x, v, L, true) := by
  induction draws with
  | nil => simp [sample_chain_point] at h
  | cons i rest ih =>
    rw [sample_chain_point] at h
    cases hint : interpolate fuel sp i with
    | none =>
      rw [hint] at h
      simp at h
    | some r =>
      obtain ⟨xi, vi, Li, onpath⟩ := r
      rw [hint] at h
      have h2 : (if onpath then some (xi, Li) else
          sample_chain_point fuel sp a b rest) = some (x, L) := h
      by_cases hon : onpath = true
      · rw [if_pos hon] at h2
        simp only [Option.some_inj, Prod.mk.injEq] at h2
        obtain ⟨hx, hL⟩ := h2
        subst hx
        subst hL
        obtain ⟨ha, hb⟩ := hdraws i (by simp)
        exact ⟨i, vi, ha, hb, by rw [hint, hon]⟩
      · rw [if_neg hon] at h2
        exact ih (fun d hd => hdraws d (by simp [hd])) h2

/-- C7, witness: a single draw hitting the recorded start point. -/
theorem claim_C7_sample_chain_point_witness :
    ∃ i v, (0:ℤ) ≤ i ∧ i ≤ 0 ∧
      interpolate 1 ⟨[((0:ℤ), [(1:ℚ)/2], [(1:ℚ)], some (3:ℚ))], true, true⟩ i
        = some ([(1:ℚ)/2], v, some (3:ℚ), true) := by
  apply claim_C7_sample_chain_point 1
    ⟨[((0:ℤ), [(1:ℚ)/2], [(1:ℚ)], some (3:ℚ))], true, true⟩ 0 0 [0]
  · intro d hd
    simp only [List.mem_singleton] at hd
    subst hd
    exact ⟨le_refl 0, le_refl 0⟩
  · have hi := interpolate_exact_hit 1
      ⟨[((0:ℤ), [(1:ℚ)/2], [(1:ℚ)], some (3:ℚ))], true, true⟩ 0
      [1/2] [1] (some 3) (by simp [idxOf]) (by simp)
    rw [sample_chain_point, hi]
    rfl

/-! ## C5: wrapped (periodic) axes -/

set_option maxHeartbeats 1600000 in
/-- C5, counterexample: for `t < 0` the source recurses as
`linear_steps_with_reflection(ray_origin, -ray_direction, -t)` *without
passing `wrapped_dims` on*, so a backward traversal treats every axis as a
plain reflecting wall.  Here axis 0 is wrapped and is crossed exactly once.
The forward run with the reversed direction (second conjunct) shows what
honouring the wrap looks like: the position is mirrored to the opposite face
and the direction kept, landing at `7/10`.  The backward wrapped call
(first conjunct) instead bounces: it lands at `3/10` and flips the
direction, contradicting the claim that every call mirrors wrapped
crossings. -/
theorem claim_C5_counterexample :
    linear_steps_with_reflection (some [true]) 2 [(1:ℚ)/5] [(1:ℚ)] (-(1/2))
      = some ([(3:ℚ)/10], [(-1:ℚ)]) ∧
    linear_steps_with_reflection (some [true]) 2 [(1:ℚ)/5] [(-1:ℚ)] (1/2)
      = some ([(7:ℚ)/10], [(-1:ℚ)]) ∧
    ¬ ((3:ℚ)/10 = 7/10) := by
  refine ⟨?_, ?_, by norm_num⟩
  · norm_num [linear_steps_with_reflection, lswrAux,
      nearest_box_intersection_line, inBoxb, slabTime, clamp01, negV, flipAt,
      updAt, axpyV, listMinO, listMaxO, List.filter_cons, List.filter_nil,
      List.all_cons, List.all_nil, List.getD, List.zipWith, List.foldl,
      List.range, List.range.loop, List.filterMap, Option.some.injEq,
      abs_of_pos, abs_of_neg]
  · norm_num [linear_steps_with_reflection, lswrAux,
      nearest_box_intersection_line, inBoxb, slabTime, clamp01, negV, flipAt,
      setTrueAt, wrapPosAt, wrapDirAt, updAt, axpyV, listMinO, listMaxO,
      List.filter_cons, List.filter_nil, List.all_cons, List.all_nil,
      List.any_cons, List.any_nil, List.getD, List.zipWith, List.foldl,
      List.range, List.range.loop, List.filterMap, Option.some.injEq,
      abs_of_pos, abs_of_neg]

/-- C5, amended: (a) a call with `t < 0` ignores `wrapped_dims` entirely and
behaves as the unwrapped walk; for `t ≥ 0`, given the next border crossing
`(p, tF, iF)` strictly before the requested stopping time: (b) if some
crossing axis is wrapped and was already bounced in this call, the walk
terminates early at the crossing point with the direction unchanged; (c)
otherwise, when every crossing coordinate sits on a wall, the walk recurses
on the updated state, in which each crossing axis that is wrapped has its
position mirrored to the opposite face (`1 - p i`) with direction kept,
while each non-wrapped crossing axis keeps its position and has its
direction negated. -/
theorem claim_C5_amended (w : List Bool) (fuel : ℕ) (refl : List Bool)
    (o d : List ℚ) (t : ℚ) (p : List ℚ) (tF : ℚ) (iF : List ℕ)
    (hnb : nearest_box_intersection_line o d true = some (p, tF, iF))
    (ht0 : 0 ≤ tF) (htl : tF < t) :
    (∀ t2 : ℚ, t2 < 0 →
      linear_steps_with_reflection (some w) fuel o d t2
        = linear_steps_with_reflection none fuel o d t2) ∧
    (iF.any (fun i => refl.getD i false && w.getD i false) = true →
      lswrAux (some w) (fuel + 1) refl o d t = some (p, d)) ∧
    (iF.any (fun i => refl.getD i false && w.getD i false) = false →
      iF.all (fun i => decide (p.getD i 0 = 0) || decide (p.getD i 0 = 1))
        = true →
      lswrAux (some w) (fuel + 1) refl o d t
        = lswrAux (some w) fuel (setTrueAt iF refl) (wrapPosAt w iF p)
            (wrapDirAt w iF d) (t - tF) ∧
      (∀ i ∈ iF, i < p.length → i < d.length →
        (wrapPosAt w iF p).getD i 0
          = (if w.getD i false then 1 - p.getD i 0 else p.getD i 0) ∧
        (wrapDirAt w iF d).getD i 0
          = (if w.getD i false then d.getD i 0 else -(d.getD i 0)))) := by
  have hndiF : iF.Nodup := (nbil_some_shape o d true p tF iF hnb).2
  refine ⟨?_, ?_, ?_⟩
  · intro t2 ht2
    have hne : t2 ≠ 0 := ne_of_lt ht2
    simp only [linear_steps_with_reflection, if_neg hne, if_pos ht2]
  · intro hany
    rw [lswrAux_succ_eq (some w) fuel refl o d t p tF iF hnb,
      if_pos ht0, if_neg (not_le.mpr htl)]
    show (if iF.any (fun i => refl.getD i false && w.getD i false)
        then some (p, d)
        else if iF.all (fun i =>
            decide (p.getD i 0 = 0) || decide (p.getD i 0 = 1))
          then lswrAux (some w) fuel (setTrueAt iF refl) (wrapPosAt w iF p)
            (wrapDirAt w iF d) (t - tF)
          else none) = some (p, d)
    rw [if_pos hany]
  · intro hany hall
    constructor
    · rw [lswrAux_succ_eq (some w) fuel refl o d t p tF iF hnb,
        if_pos ht0, if_neg (not_le.mpr htl)]
      show (if iF.any (fun i => refl.getD i false && w.getD i false)
          then some (p, d)
          else if iF.all (fun i =>
              decide (p.getD i 0 = 0) || decide (p.getD i 0 = 1))
            then lswrAux (some w) fuel (setTrueAt iF refl) (wrapPosAt w iF p)
              (wrapDirAt w iF d) (t - tF)
            else none)
        = lswrAux (some w) fuel (setTrueAt iF refl) (wrapPosAt w iF p)
            (wrapDirAt w iF d) (t - tF)
      rw [if_neg (by rw [hany]; exact fun h => Bool.noConfusion h), if_pos hall]
    · intro i hi hip hid
      constructor
      · rw [wrapPosAt, getD_updAt 0 _ iF p hndiF i, if_pos ⟨hi, hip⟩]
      · rw [wrapDirAt, getD_updAt 0 _ iF d hndiF i, if_pos ⟨hi, hid⟩]
        by_cases hw : w.getD i false = true
        · rw [if_pos hw, if_pos hw, mul_one]
        · rw [if_neg hw, if_neg hw, mul_neg_one]

/-- C5, amended, witness: one wrap event on axis 0, entering the wall `0`
with direction `-1`; the position is mirrored to `1 - 0` and the direction
kept. -/
theorem claim_C5_amended_witness :
    linear_steps_with_reflection (some [true]) 1 [(1:ℚ)/5] [(-1:ℚ)] (-(1/2))
      = linear_steps_with_reflection none 1 [(1:ℚ)/5] [(-1:ℚ)] (-(1/2)) ∧
    lswrAux (some [true]) 2 [false] [(1:ℚ)/5] [(-1:ℚ)] (1/2)
      = lswrAux (some [true]) 1 (setTrueAt [0] [false])
          (wrapPosAt [true] [0] [(0:ℚ)]) (wrapDirAt [true] [0] [(-1:ℚ)])
          (1/2 - 1/5) ∧
    (wrapPosAt [true] [0] [(0:ℚ)]).getD 0 0 = 1 - ([(0:ℚ)]).getD 0 0 ∧
    (wrapDirAt [true] [0] [(-1:ℚ)]).getD 0 0 = ([(-1:ℚ)]).getD 0 0 := by
  have hnb : nearest_box_intersection_line [(1:ℚ)/5] [(-1:ℚ)] true
      = some ([(0:ℚ)], 1/5, [0]) := by
    norm_num [nearest_box_intersection_line, inBoxb, slabTime, clamp01,
      axpyV, listMinO, listMaxO, List.filter_cons, List.filter_nil,
      List.all_cons, List.all_nil, List.getD, List.zipWith, List.foldl,
      List.range, List.range.loop, List.filterMap, Option.some.injEq,
      abs_of_pos, abs_of_neg]
  have h := claim_C5_amended [true] 1 [false] [(1:ℚ)/5] [(-1:ℚ)] (1/2)
    [(0:ℚ)] (1/5) [0] hnb (by norm_num) (by norm_num)
  have hany : ([0] : List ℕ).any
      (fun i => ([false] : List Bool).getD i false
        && ([true] : List Bool).getD i false) = false := by
    simp [List.getD]
  have hall : ([0] : List ℕ).all
      (fun i => decide (([(0:ℚ)]).getD i 0 = 0)
        || decide (([(0:ℚ)]).getD i 0 = 1)) = true := by
    simp [List.getD]
  obtain ⟨ha, _, hc⟩ := h
  obtain ⟨hstep, hpt⟩ := hc hany hall
  have hpt0 := hpt 0 (by simp) (by simp) (by simp)
  refine ⟨ha (-(1/2)) (by norm_num), hstep, ?_, ?_⟩
  · have := hpt0.1
    rw [if_pos (by simp [List.getD])] at this
    exact this
  · have := hpt0.2
    rw [if_pos (by simp [List.getD])] at this
    exact this

/-! ## C2: composing the fold closed form across a split traversal -/

/-- Every unfolded coordinate is, modulo shifting by an even integer,
either the folded position travelling in the original direction (case A) or
its mirror travelling in the reversed direction (case B). -/
theorem fold_cases (v y : ℚ) :
    ∃ m : ℤ, (foldPos y = y - 2 * m ∧ dirFold v y = v) ∨
      (foldPos y = 2 * m - y ∧ dirFold v y = -v) := by
  have hdec := fract2_decomp y
  have h0 := fract2_nonneg y
  have h2 := fract2_lt_two y
  rcases lt_trichotomy v 0 with hv | hv | hv
  · by_cases hr : fract2 y < 1
    · refine ⟨⌊y / 2⌋, Or.inl ⟨?_, ?_⟩⟩
      · rw [foldPos, if_pos (le_of_lt hr)]
        linarith
      · rw [dirFold, if_neg (not_lt.mpr (le_of_lt hv)), if_pos hv, if_pos hr]
    · refine ⟨⌊y / 2⌋ + 1, Or.inr ⟨?_, ?_⟩⟩
      · push_neg at hr
        rcases eq_or_lt_of_le hr with he | hlt
        · rw [foldPos, if_pos (le_of_eq he.symm), ← he]
          push_cast
          linarith
        · rw [foldPos, if_neg (not_le.mpr hlt)]
          push_cast
          linarith
      · rw [dirFold, if_neg (not_lt.mpr (le_of_lt hv)), if_pos hv,
          if_neg (by push_neg at hr ⊢; exact hr)]
  · subst hv
    by_cases hr : fract2 y ≤ 1
    · refine ⟨⌊y / 2⌋, Or.inl ⟨?_, ?_⟩⟩
      · rw [foldPos, if_pos hr]
        linarith
      · rw [dirFold, if_neg (lt_irrefl 0), if_neg (lt_irrefl 0)]
    · refine ⟨⌊y / 2⌋ + 1, Or.inr ⟨?_, ?_⟩⟩
      · rw [foldPos, if_neg hr]
        push_cast
        linarith
      · rw [dirFold, if_neg (lt_irrefl 0), if_neg (lt_irrefl 0), neg_zero]
  · by_cases hr : 0 < fract2 y ∧ fract2 y ≤ 1
    · refine ⟨⌊y / 2⌋, Or.inl ⟨?_, ?_⟩⟩
      · rw [foldPos, if_pos hr.2]
        linarith
      · rw [dirFold, if_pos hv, if_pos hr]
    · by_cases hz : fract2 y = 0
      · refine ⟨⌊y / 2⌋, Or.inr ⟨?_, ?_⟩⟩
        · rw [foldPos, if_pos (by rw [hz]; norm_num), hz]
          linarith
        · rw [dirFold, if_pos hv, if_neg (by rw [hz]; simp)]
      · have h1 : 1 < fract2 y := by
          push_neg at hr
          exact hr (lt_of_le_of_ne h0 (Ne.symm hz))
        refine ⟨⌊y / 2⌋ + 1, Or.inr ⟨?_, ?_⟩⟩
        · rw [foldPos, if_neg (not_le.mpr h1)]
          push_cast
          linarith
        · rw [dirFold, if_pos hv, if_neg (fun hc => absurd hc.2 (not_le.mpr h1))]

/-- Per-axis composition: arriving at time `u`, then travelling backwards by
`u - a`, lands at the time-`a` folded position, with the time-`a` arrival
direction (after the final negation of the backward replay) — provided the
time-`a` landing is not exactly on a wall. -/
theorem axis_compose (x v u a : ℚ)
    (hw : v ≠ 0 → fract2 (x + a * v) ≠ 0 ∧ fract2 (x + a * v) ≠ 1) :
    foldPos (foldPos (x + u * v) + (u - a) * -(dirFold v (x + u * v)))
      = foldPos (x + a * v) ∧
    -(dirFold (-(dirFold v (x + u * v)))
        (foldPos (x + u * v) + (u - a) * -(dirFold v (x + u * v))))
      = dirFold v (x + a * v) := by
  by_cases hv : v = 0
  · subst hv
    have hd0 : ∀ y : ℚ, dirFold 0 y = 0 := fun y => by
      rw [dirFold, if_neg (lt_irrefl 0), if_neg (lt_irrefl 0)]
    rw [hd0, neg_zero, mul_zero, add_zero, mul_zero, add_zero, mul_zero,
      add_zero, hd0, hd0, neg_zero]
    exact ⟨foldPos_self _ (foldPos_nonneg x) (foldPos_le_one x), rfl⟩
  · obtain ⟨hw0, hw1⟩ := hw hv
    obtain ⟨m, hc⟩ := fold_cases v (x + u * v)
    rcases hc with ⟨hp, hd⟩ | ⟨hp, hd⟩
    · have harg : foldPos (x + u * v) + (u - a) * -(dirFold v (x + u * v))
          = (x + a * v) + 2 * ((-m : ℤ) : ℚ) := by
        rw [hp, hd]
        push_cast
        ring
      constructor
      · rw [harg, foldPos_int_shift]
      · rw [harg, hd, dirFold_int_shift, dirFold_neg_fst _ _ hw0 hw1, neg_neg]
    · have harg : foldPos (x + u * v) + (u - a) * -(dirFold v (x + u * v))
          = -(x + a * v) + 2 * (m : ℚ) := by
        rw [hp, hd]
        push_cast
        ring
      constructor
      · rw [harg, foldPos_int_shift, foldPos_neg]
      · rw [harg, hd, neg_neg, dirFold_int_shift]
        have hswap : dirFold v (-(x + a * v)) = dirFold (-v) (x + a * v) := by
          have h := dirFold_neg_neg (-v) (x + a * v)
          rw [neg_neg] at h
          exact h
        rw [hswap, dirFold_neg_fst _ _ hw0 hw1, neg_neg]

/-- Splitting a successful traversal of duration `u` at an intermediate time
`a`: the forward replay by `a` and the backward replay by `a - u` from the
arrival state agree, both computing the time-`a` folded closed form —
provided no axis lands exactly on a wall at time `a`. -/
theorem extrapolate_compose (xj vj xk vk : List ℚ) (u a : ℚ) (fuel0 : ℕ)
    (hlen : vj.length = xj.length)
    (ha0 : 0 < a) (hau : a < u)
    (hcons : extrapolate_ahead fuel0 u xj vj = some (xk, vk))
    (hwall : ∀ n, n < xj.length → vj.getD n 0 ≠ 0 →
      fract2 (xj.getD n 0 + a * vj.getD n 0) ≠ 0 ∧
      fract2 (xj.getD n 0 + a * vj.getD n 0) ≠ 1) :
    ∃ fuel, extrapolate_ahead fuel a xj vj
        = some (stateCFpos xj vj a, stateCFdir xj vj a) ∧
      extrapolate_ahead fuel (a - u) xk vk
        = some (stateCFpos xj vj a, stateCFdir xj vj a) := by
  have hu0 : 0 < u := lt_trans ha0 hau
  have hcons' : lswrAux none fuel0 (List.replicate xj.length false) xj vj u
      = some (xk, vk) := by
    unfold extrapolate_ahead linear_steps_with_reflection at hcons
    rw [if_neg (ne_of_gt hu0), if_neg (not_lt.mpr (le_of_lt hu0))] at hcons
    exact hcons
  obtain ⟨hbox, i0, hi0m, hd0⟩ :=
    lswrAux_some_inv none fuel0 _ xj vj u (xk, vk) hcons'
  have hi0 : i0 < xj.length := lt_of_lt_of_le hi0m (min_le_left _ _)
  have hnz : ∃ n, n < xj.length ∧ vj.getD n 0 ≠ 0 := ⟨i0, hi0, hd0⟩
  obtain ⟨hxk, hvk⟩ := lswrAux_partial fuel0 _ xj vj u xk vk hlen hu0 hcons'
  have hxklen : xk.length = xj.length := by
    rw [hxk, length_stateCFpos, hlen, min_self]
  have hvklen : vk.length = xj.length := by
    rw [hvk, length_stateCFdir, hlen, min_self]
  have hnvklen : (negV vk).length = xj.length := by rw [length_negV, hvklen]
  have hgxk : ∀ n, n < xj.length →
      xk.getD n 0 = foldPos (xj.getD n 0 + u * vj.getD n 0) := by
    intro n hn
    rw [hxk]
    exact getD_stateCFpos xj vj u n hn (hlen ▸ hn)
  have hgvk : ∀ n, n < xj.length →
      vk.getD n 0 = dirFold (vj.getD n 0) (xj.getD n 0 + u * vj.getD n 0) := by
    intro n hn
    rw [hvk]
    exact getD_stateCFdir xj vj u n hn (hlen ▸ hn)
  have hgnvk : ∀ n, n < xj.length → (negV vk).getD n 0 = -(vk.getD n 0) :=
    fun n hn => getD_negV vk n (hvklen ▸ hn)
  have hboxk : ∀ n, n < xk.length → 0 ≤ xk.getD n 0 ∧ xk.getD n 0 ≤ 1 := by
    intro n hn
    rw [hgxk n (hxklen ▸ hn)]
    exact ⟨foldPos_nonneg _, foldPos_le_one _⟩
  have hnzk : ∃ n, n < xk.length ∧ (negV vk).getD n 0 ≠ 0 := by
    refine ⟨i0, hxklen ▸ hi0, ?_⟩
    rw [hgnvk i0 hi0, hgvk i0 hi0]
    exact neg_ne_zero.mpr (dirFold_ne_zero _ _ hd0)
  have hs0 : 0 < u - a := by linarith
  have hfwd := lswrAux_total (measureN xj vj a + 1) xj vj a
    (List.replicate xj.length false) hlen hbox hnz ha0 (by omega)
  have hbwd := lswrAux_total (measureN xk (negV vk) (u - a) + 1) xk (negV vk)
    (u - a) (List.replicate xk.length false)
    (by rw [hnvklen, hxklen]) hboxk hnzk hs0 (by omega)
  have hposeq : stateCFpos xk (negV vk) (u - a) = stateCFpos xj vj a := by
    apply eq_of_getD 0
    · rw [length_stateCFpos, length_stateCFpos, hxklen, hnvklen, hlen,
        min_self]
    · intro n hn
      rw [length_stateCFpos, hxklen, hnvklen, min_self] at hn
      rw [getD_stateCFpos _ _ _ n (hxklen ▸ hn) (hnvklen ▸ hn),
        getD_stateCFpos _ _ _ n hn (hlen ▸ hn),
        hgxk n hn, hgnvk n hn, hgvk n hn]
      exact (axis_compose (xj.getD n 0) (vj.getD n 0) u a
        (fun hne => hwall n hn hne)).1
  have hdireq : negV (stateCFdir xk (negV vk) (u - a)) = stateCFdir xj vj a := by
    apply eq_of_getD 0
    · rw [length_negV, length_stateCFdir, length_stateCFdir, hxklen, hnvklen,
        hlen, min_self]
    · intro n hn
      rw [length_negV, length_stateCFdir, hxklen, hnvklen, min_self] at hn
      have hnlen : n < (stateCFdir xk (negV vk) (u - a)).length := by
        rw [length_stateCFdir, hxklen, hnvklen, min_self]
        exact hn
      rw [getD_negV _ n hnlen,
        getD_stateCFdir _ _ _ n (hxklen ▸ hn) (hnvklen ▸ hn),
        getD_stateCFdir _ _ _ n hn (hlen ▸ hn),
        hgxk n hn, hgnvk n hn, hgvk n hn]
      exact (axis_compose (xj.getD n 0) (vj.getD n 0) u a
        (fun hne => hwall n hn hne)).2
  refine ⟨max (measureN xj vj a + 1) (measureN xk (negV vk) (u - a) + 1),
    ?_, ?_⟩
  · unfold extrapolate_ahead linear_steps_with_reflection
    rw [if_neg (ne_of_gt ha0), if_neg (not_lt.mpr (le_of_lt ha0))]
    exact lswrAux_mono none _ _ (le_max_left _ _) _ xj vj a _ hfwd
  · unfold extrapolate_ahead linear_steps_with_reflection
    have hneg : a - u < 0 := by linarith
    rw [if_neg (ne_of_lt hneg), if_pos hneg]
    have hru : -(a - u) = u - a := by ring
    rw [hru,
      lswrAux_mono none _ _ (le_max_right _ _) _ xk (negV vk) (u - a) _ hbwd]
    show some (stateCFpos xk (negV vk) (u - a),
        negV (stateCFdir xk (negV vk) (u - a)))
      = some (stateCFpos xj vj a, stateCFdir xj vj a)
    rw [hposeq, hdireq]

set_option maxHeartbeats 1600000 in
/-- C2, counterexample: a path with recorded points `(0, [1/2], [2/3])` and
`(3, [1/2], [2/3])` is consistent (the first conjunct: replaying `3` units
from index `0` reproduces the stored point at index `3`).  At the unrecorded
index `1`, the forward replay from `0` and the backward replay from `3`
agree on position `[5/6]` *and direction `[-2/3]`* (the trajectory bounced
off the wall `1` at time `3/4`).  Yet `interpolate` returns the direction
`[2/3]` stored at the left neighbour (`return xl, vj, None, True`), not the
replayed direction `[-2/3]`, refuting the claim that the replayed direction
is what interpolate returns. -/
theorem claim_C2_counterexample :
    extrapolate_ahead 3 (((3:ℤ) - 0 : ℤ) : ℚ) [(1:ℚ)/2] [(2:ℚ)/3]
      = some ([(1:ℚ)/2], [(2:ℚ)/3]) ∧
    extrapolate_ahead 3 (((1:ℤ) - 0 : ℤ) : ℚ) [(1:ℚ)/2] [(2:ℚ)/3]
      = some ([(5:ℚ)/6], [-(2:ℚ)/3]) ∧
    extrapolate_ahead 3 (((1:ℤ) - 3 : ℤ) : ℚ) [(1:ℚ)/2] [(2:ℚ)/3]
      = some ([(5:ℚ)/6], [-(2:ℚ)/3]) ∧
    interpolate 3 ⟨[((0:ℤ), [(1:ℚ)/2], [(2:ℚ)/3], some (1:ℚ)),
        ((3:ℤ), [(1:ℚ)/2], [(2:ℚ)/3], some (2:ℚ))], true, true⟩ 1
      = some ([(5:ℚ)/6], [(2:ℚ)/3], none, true) ∧
    ¬ ([(2:ℚ)/3] = [-(2:ℚ)/3]) := by
  refine ⟨?_, ?_, ?_, ?_, by simp; norm_num⟩
  · norm_num [extrapolate_ahead, linear_steps_with_reflection, lswrAux,
      nearest_box_intersection_line, inBoxb, slabTime, clamp01, negV, flipAt,
      updAt, axpyV, listMinO, listMaxO, List.filter_cons, List.filter_nil,
      List.all_cons, List.all_nil, List.getD, List.zipWith, List.foldl,
      List.range, List.range.loop, List.filterMap, Option.some.injEq,
      abs_of_pos, abs_of_neg]
  · norm_num [extrapolate_ahead, linear_steps_with_reflection, lswrAux,
      nearest_box_intersection_line, inBoxb, slabTime, clamp01, negV, flipAt,
      updAt, axpyV, listMinO, listMaxO, List.filter_cons, List.filter_nil,
      List.all_cons, List.all_nil, List.getD, List.zipWith, List.foldl,
      List.range, List.range.loop, List.filterMap, Option.some.injEq,
      abs_of_pos, abs_of_neg]
  · norm_num [extrapolate_ahead, linear_steps_with_reflection, lswrAux,
      nearest_box_intersection_line, inBoxb, slabTime, clamp01, negV, flipAt,
      updAt, axpyV, listMinO, listMaxO, List.filter_cons, List.filter_nil,
      List.all_cons, List.all_nil, List.getD, List.zipWith, List.foldl,
      List.range, List.range.loop, List.filterMap, Option.some.injEq,
      abs_of_pos, abs_of_neg]
  · norm_num [interpolate, maxPointD, minPointD, listMinO, listMaxO, idxOf,
      extrapolate_ahead, linear_steps_with_reflection, lswrAux,
      nearest_box_intersection_line, inBoxb, slabTime, clamp01, negV, flipAt,
      updAt, axpyV, List.filter_cons, List.filter_nil,
      List.all_cons, List.all_nil, List.getD, List.zipWith, List.foldl,
      List.range, List.range.loop, List.filterMap, List.map_cons,
      List.map_nil, Option.some.injEq, abs_of_pos, abs_of_neg]

/-- C2, amended: with `j < i < k` the nearest recorded neighbours of the
unrecorded index `i`, a consistent stored pair (replaying `k - j` units from
`j` reproduces the stored state at `k`), and no axis landing exactly on a
wall at time `i - j`: the forward replay from `j` and the backward replay
from `k` agree on both position and direction (both equal the folded closed
form at time `i - j`), `interpolate i` reports `on_path = true` with the
replayed *position* — but its returned direction is `vj`, the direction
stored at the left neighbour, not the replayed direction. -/
theorem claim_C2_amended (fuel0 : ℕ) (sp : SPath) (i j k : ℤ)
    (xj vj xk vk : List ℚ) (Lj Lk : Option ℚ)
    (hnd : (sp.points.map idxOf).Nodup)
    (hmemj : (j, xj, vj, Lj) ∈ sp.points)
    (hmemk : (k, xk, vk, Lk) ∈ sp.points)
    (hji : j < i) (hik : i < k)
    (hnearj : ∀ q ∈ sp.points, idxOf q ≤ i → idxOf q ≤ j)
    (hneark : ∀ q ∈ sp.points, i ≤ idxOf q → k ≤ idxOf q)
    (hlen : vj.length = xj.length)
    (hcons : extrapolate_ahead fuel0 ((k - j : ℤ) : ℚ) xj vj = some (xk, vk))
    (hwall : ∀ n, n < xj.length → vj.getD n 0 ≠ 0 →
      fract2 (xj.getD n 0 + ((i - j : ℤ) : ℚ) * vj.getD n 0) ≠ 0 ∧
      fract2 (xj.getD n 0 + ((i - j : ℤ) : ℚ) * vj.getD n 0) ≠ 1) :
    ∃ fuel,
      extrapolate_ahead fuel ((i - j : ℤ) : ℚ) xj vj
        = some (stateCFpos xj vj ((i - j : ℤ) : ℚ),
            stateCFdir xj vj ((i - j : ℤ) : ℚ)) ∧
      extrapolate_ahead fuel ((i - k : ℤ) : ℚ) xk vk
        = some (stateCFpos xj vj ((i - j : ℤ) : ℚ),
            stateCFdir xj vj ((i - j : ℤ) : ℚ)) ∧
      interpolate fuel sp i
        = some (stateCFpos xj vj ((i - j : ℤ) : ℚ), vj, none, true) := by
  have ha0 : (0:ℚ) < ((i - j : ℤ) : ℚ) := by
    exact_mod_cast (show (0:ℤ) < i - j by omega)
  have hau : ((i - j : ℤ) : ℚ) < ((k - j : ℤ) : ℚ) := by
    exact_mod_cast (show (i - j : ℤ) < (k - j : ℤ) by omega)
  have hak : ((i - j : ℤ) : ℚ) - ((k - j : ℤ) : ℚ) = ((i - k : ℤ) : ℚ) := by
    push_cast
    ring
  obtain ⟨fuel, hfwd, hbwd⟩ := extrapolate_compose xj vj xk vk
    ((k - j : ℤ) : ℚ) ((i - j : ℤ) : ℚ) fuel0 hlen ha0 hau hcons hwall
  have hbwd' : extrapolate_ahead fuel ((i - k : ℤ) : ℚ) xk vk
      = some (stateCFpos xj vj ((i - j : ℤ) : ℚ),
          stateCFdir xj vj ((i - j : ℤ) : ℚ)) := by
    rw [← hak]
    exact hbwd
  refine ⟨fuel, hfwd, hbwd', ?_⟩
  have hpbmem : (j, xj, vj, Lj)
      ∈ sp.points.filter (fun q => decide (idxOf q ≤ i)) :=
    List.mem_filter.mpr ⟨hmemj, by simp [idxOf]; omega⟩
  have hpamem : (k, xk, vk, Lk)
      ∈ sp.points.filter (fun q => decide (i ≤ idxOf q)) :=
    List.mem_filter.mpr ⟨hmemk, by simp [idxOf]; omega⟩
  have hpbne : sp.points.filter (fun q => decide (idxOf q ≤ i)) ≠ [] :=
    List.ne_nil_of_mem hpbmem
  have hpane : sp.points.filter (fun q => decide (i ≤ idxOf q)) ≠ [] :=
    List.ne_nil_of_mem hpamem
  have hndb : ((sp.points.filter (fun q => decide (idxOf q ≤ i))).map
      idxOf).Nodup :=
    List.Nodup.sublist (List.Sublist.map idxOf (List.filter_sublist _)) hnd
  have hnda : ((sp.points.filter (fun q => decide (i ≤ idxOf q))).map
      idxOf).Nodup :=
    List.Nodup.sublist (List.Sublist.map idxOf (List.filter_sublist _)) hnd
  have hmax : maxPointD (sp.points.filter (fun q => decide (idxOf q ≤ i)))
      = some (j, xj, vj, Lj) := by
    apply maxPointD_eq _ _ hndb hpbmem
    intro r hr
    exact hnearj r (List.mem_filter.mp hr).1
      (by simpa [idxOf] using (List.mem_filter.mp hr).2)
  have hmin : minPointD (sp.points.filter (fun q => decide (i ≤ idxOf q)))
      = some (k, xk, vk, Lk) := by
    apply minPointD_eq _ _ hnda hpamem
    intro r hr
    exact hneark r (List.mem_filter.mp hr).1
      (by simpa [idxOf] using (List.mem_filter.mp hr).2)
  unfold interpolate
  rw [if_neg (fun hc => hpane hc.1), if_neg (fun hc => hpbne hc.1),
    if_neg (by
      rintro (hc | hc)
      · exact hpbne hc
      · exact hpane hc)]
  rw [hmax, hmin]
  show (if j = i then some (xj, vj, Lj, true)
    else if k = i then none
    else match extrapolate_ahead fuel ((i - j : ℤ) : ℚ) xj vj,
          extrapolate_ahead fuel ((i - k : ℤ) : ℚ) xk vk with
      | some (xl1, vj1), some (xl2, vj2) =>
        if xl1 = xl2 ∧ vj1 = vj2 then some (xl1, vj, none, true) else none
      | _, _ => none)
    = some (stateCFpos xj vj ((i - j : ℤ) : ℚ), vj, none, true)
  rw [if_neg (ne_of_lt hji), if_neg (ne_of_gt hik), hfwd, hbwd']
  show (if stateCFpos xj vj ((i - j : ℤ) : ℚ)
        = stateCFpos xj vj ((i - j : ℤ) : ℚ) ∧
      stateCFdir xj vj ((i - j : ℤ) : ℚ)
        = stateCFdir xj vj ((i - j : ℤ) : ℚ)
    then some (stateCFpos xj vj ((i - j : ℤ) : ℚ), vj, none, true)
    else none)
    = some (stateCFpos xj vj ((i - j : ℤ) : ℚ), vj, none, true)
  rw [if_pos ⟨rfl, rfl⟩]

set_option maxHeartbeats 1600000 in
/-- C2, amended, witness: the consistent two-point path of the
counterexample, interpolated at index `1`. -/
theorem claim_C2_amended_witness :
    ∃ fuel,
      extrapolate_ahead fuel (((1:ℤ) - 0 : ℤ) : ℚ) [(1:ℚ)/2] [(2:ℚ)/3]
        = some (stateCFpos [(1:ℚ)/2] [(2:ℚ)/3] (((1:ℤ) - 0 : ℤ) : ℚ),
            stateCFdir [(1:ℚ)/2] [(2:ℚ)/3] (((1:ℤ) - 0 : ℤ) : ℚ)) ∧
      extrapolate_ahead fuel (((1:ℤ) - 3 : ℤ) : ℚ) [(1:ℚ)/2] [(2:ℚ)/3]
        = some (stateCFpos [(1:ℚ)/2] [(2:ℚ)/3] (((1:ℤ) - 0 : ℤ) : ℚ),
            stateCFdir [(1:ℚ)/2] [(2:ℚ)/3] (((1:ℤ) - 0 : ℤ) : ℚ)) ∧
      interpolate fuel ⟨[((0:ℤ), [(1:ℚ)/2], [(2:ℚ)/3], some (1:ℚ)),
          ((3:ℤ), [(1:ℚ)/2], [(2:ℚ)/3], some (2:ℚ))], true, true⟩ 1
        = some (stateCFpos [(1:ℚ)/2] [(2:ℚ)/3] (((1:ℤ) - 0 : ℤ) : ℚ),
            [(2:ℚ)/3], none, true) := by
  apply claim_C2_amended 3
    ⟨[((0:ℤ), [(1:ℚ)/2], [(2:ℚ)/3], some (1:ℚ)),
      ((3:ℤ), [(1:ℚ)/2], [(2:ℚ)/3], some (2:ℚ))], true, true⟩
    1 0 3 [(1:ℚ)/2] [(2:ℚ)/3] [(1:ℚ)/2] [(2:ℚ)/3] (some (1:ℚ)) (some (2:ℚ))
  · simp [idxOf]
  · simp
  · simp
  · norm_num
  · norm_num
  · intro q hq
    simp only [List.mem_cons, List.not_mem_nil, or_false] at hq
    rcases hq with rfl | rfl
    · intro _
      norm_num [idxOf]
    · intro h
      exact absurd h (by norm_num [idxOf])
  · intro q hq
    simp only [List.mem_cons, List.not_mem_nil, or_false] at hq
    rcases hq with rfl | rfl
    · intro h
      exact absurd h (by norm_num [idxOf])
    · intro _
      norm_num [idxOf]
  · rfl
  · norm_num [extrapolate_ahead, linear_steps_with_reflection, lswrAux,
      nearest_box_intersection_line, inBoxb, slabTime, clamp01, negV, flipAt,
      updAt, axpyV, listMinO, listMaxO, List.filter_cons, List.filter_nil,
      List.all_cons, List.all_nil, List.getD, List.zipWith, List.foldl,
      List.range, List.range.loop, List.filterMap, Option.some.injEq,
      abs_of_pos, abs_of_neg]
  · intro n hn hne
    simp only [List.length_cons, List.length_nil] at hn
    have h0 : n = 0 := by omega
    subst h0
    have harg : ([(1:ℚ)/2]).getD 0 0
        + (((1:ℤ) - 0 : ℤ) : ℚ) * ([(2:ℚ)/3]).getD 0 0 = 7/6 := by
      norm_num [List.getD]
    rw [harg, fract2_self (7/6) (by norm_num) (by norm_num)]
    norm_num

/-! ## C3: one expansion step of the step sampler -/

/-- `StepSampler.reverse(reflpoint, v)`: ask the region for a surface normal
(an external oracle here); `None` falls back to full reversal, otherwise the
direction is reflected off the normal.  The source's shape assert and the
`np.isclose(norm(vnew), norm(v))` assert are the guards (exact over `ℚ`). -/
def reverse (gradient : List ℚ → Option (List ℚ)) (reflpoint v : List ℚ) :
    Option (List ℚ) :=
  match gradient reflpoint with
  | none => some (negV v)
  | some normal =>
    if (reflect v normal).length = v.length ∧
        sumSq (reflect v normal) = sumSq v
    then some (reflect v normal) else none

/-- Terminal failure of a step: clear the stepped side's flag on the
sampling path and report `False`. -/
def expand_fail (cp2 : CPath) (fwd : Bool) : Option (Bool × CPath) :=
  if fwd then
    some (false, { cp2 with
      spath := { cp2.spath with fwd_possible := false } })
  else
    some (false, { cp2 with
      spath := { cp2.spath with rwd_possible := false } })

/-- The retry accept attempt after a reflection. -/
def expand_retry (transform : List ℚ → List ℚ) (likelihood : List ℚ → ℚ)
    (cp1 : CPath) (fwd : Bool) (j : ℤ) (xk vk : List ℚ) :
    Option (Bool × CPath) :=
  match add_if_above_threshold transform likelihood cp1 j xk vk with
  | (true, cp2) => some (true, cp2)
  | (false, cp2) => expand_fail cp2 fwd

/-- The reflect-and-retry path taken when the first attempt is rejected:
`vk = reverse(xj, v*sign)*sign; xk, vk = extrapolate_ahead(sign, xj, vk)`,
then one more accept attempt. -/
def expand_reflect (gradient : List ℚ → Option (List ℚ))
    (transform : List ℚ → List ℚ) (likelihood : List ℚ → ℚ) (fuel : ℕ)
    (cp1 : CPath) (fwd : Bool) (j : ℤ) (xj v : List ℚ) :
    Option (Bool × CPath) :=
  match reverse gradient xj
      (smulV (((if fwd then 1 else -1) : ℤ) : ℚ) v) with
  | none => none
  | some w =>
    match extrapolate_ahead fuel (((if fwd then 1 else -1) : ℤ) : ℚ) xj
        (smulV (((if fwd then 1 else -1) : ℤ) : ℚ) w) with
    | none => none
    | some (xk, vk) => expand_retry transform likelihood cp1 fwd j xk vk

/-- The body of `StepSampler.expand_onestep` after the frontier index has
been read off: extrapolate to `j`, try to accept; on rejection reflect and
retry once. -/
def expand_core (gradient : List ℚ → Option (List ℚ))
    (transform : List ℚ → List ℚ) (likelihood : List ℚ → ℚ) (fuel : ℕ)
    (cp : CPath) (fwd : Bool) (j : ℤ) : Option (Bool × CPath) :=
  match spExtrapolate fuel cp.spath j with
  | none => none
  | some (xj, v) =>
    match add_if_above_threshold transform likelihood cp j xj v with
    | (true, cp1) => some (true, cp1)
    | (false, cp1) =>
      expand_reflect gradient transform likelihood fuel cp1 fwd j xj v

/-- `StepSampler.expand_onestep(fwd)`: read the frontier point off the path
(`max(points)` forward, `min(points)` backward — `none` models the raise on
an empty path) and run the step body at index `frontier + sign`. -/
def expand_onestep (gradient : List ℚ → Option (List ℚ))
    (transform : List ℚ → List ℚ) (likelihood : List ℚ → ℚ) (fuel : ℕ)
    (cp : CPath) (fwd : Bool) : Option (Bool × CPath) :=
  match (if fwd then maxPointD cp.spath.points
      else minPointD cp.spath.points) with
  | none => none
  | some q => expand_core gradient transform likelihood fuel cp fwd
      (idxOf q + (if fwd then 1 else -1))

theorem aiat_ncalls (transform : List ℚ → List ℚ) (likelihood : List ℚ → ℚ)
    (cp : CPath) (i : ℤ) (x v : List ℚ) :
    (add_if_above_threshold transform likelihood cp i x v).2.ncalls
      = cp.ncalls + 1 := by
  simp only [add_if_above_threshold]
  split_ifs <;> rfl

theorem aiat_flags (transform : List ℚ → List ℚ) (likelihood : List ℚ → ℚ)
    (cp : CPath) (i : ℤ) (x v : List ℚ) :
    (add_if_above_threshold transform likelihood cp i x v).2.spath.fwd_possible
      = cp.spath.fwd_possible ∧
    (add_if_above_threshold transform likelihood cp i x v).2.spath.rwd_possible
      = cp.spath.rwd_possible := by
  simp only [add_if_above_threshold]
  split_ifs <;> exact ⟨rfl, rfl⟩

/-- C3: one call to `expand_onestep`, given a readable frontier, a
successful extrapolation, and well-behaved reflection data, raises no error
(returns `some`), makes at most two accept attempts (the counter grows by
`1` or `2`), leaves both side flags untouched on success, and on failure has
made exactly two attempts, cleared exactly the stepped side's flag on the
sampling path, and preserved the other side's flag. -/
theorem claim_C3_expand_onestep (gradient : List ℚ → Option (List ℚ))
    (transform : List ℚ → List ℚ) (likelihood : List ℚ → ℚ) (fuel : ℕ)
    (cp : CPath) (fwd : Bool) (starti : ℤ) (x0 v0 : List ℚ) (L0 : Option ℚ)
    (xj v w xk vk : List ℚ)
    (hq : (if fwd then maxPointD cp.spath.points
        else minPointD cp.spath.points) = some (starti, x0, v0, L0))
    (hext : spExtrapolate fuel cp.spath
        (starti + (if fwd then 1 else -1)) = some (xj, v))
    (hrev : reverse gradient xj
        (smulV (((if fwd then 1 else -1) : ℤ) : ℚ) v) = some w)
    (hext2 : extrapolate_ahead fuel (((if fwd then 1 else -1) : ℤ) : ℚ) xj
        (smulV (((if fwd then 1 else -1) : ℤ) : ℚ) w) = some (xk, vk)) :
    ∃ b cp', expand_onestep gradient transform likelihood fuel cp fwd
        = some (b, cp') ∧
      cp.ncalls + 1 ≤ cp'.ncalls ∧ cp'.ncalls ≤ cp.ncalls + 2 ∧
      (b = true → cp'.spath.fwd_possible = cp.spath.fwd_possible ∧
        cp'.spath.rwd_possible = cp.spath.rwd_possible) ∧
      (b = false → cp'.ncalls = cp.ncalls + 2 ∧
        (fwd = true → cp'.spath.fwd_possible = false ∧
          cp'.spath.rwd_possible = cp.spath.rwd_possible) ∧
        (fwd = false → cp'.spath.rwd_possible = false ∧
          cp'.spath.fwd_possible = cp.spath.fwd_possible)) := by
  have hred : expand_onestep gradient transform likelihood fuel cp fwd
      = expand_core gradient transform likelihood fuel cp fwd
          (starti + (if fwd then 1 else -1)) := by
    unfold expand_onestep
    rw [hq]
    rfl
  cases h1 : add_if_above_threshold transform likelihood cp
      (starti + (if fwd then 1 else -1)) xj v with
  | mk b1 cp1 =>
    have hn1 : cp1.ncalls = cp.ncalls + 1 := by
      have h := aiat_ncalls transform likelihood cp
        (starti + (if fwd then 1 else -1)) xj v
      rw [h1] at h
      exact h
    have hf1 := aiat_flags transform likelihood cp
      (starti + (if fwd then 1 else -1)) xj v
    rw [h1] at hf1
    have e1 : expand_onestep gradient transform likelihood fuel cp fwd
        = (match add_if_above_threshold transform likelihood cp
            (starti + (if fwd then 1 else -1)) xj v with
          | (true, cp1) => some (true, cp1)
          | (false, cp1) => expand_reflect gradient transform likelihood fuel
              cp1 fwd (starti + (if fwd then 1 else -1)) xj v) := by
      rw [hred]
      unfold expand_core
      rw [hext]
    rw [h1] at e1
    cases b1 with
    | true =>
      refine ⟨true, cp1, e1, by omega, by omega, ?_, ?_⟩
      · intro _
        exact hf1
      · intro hc
        exact absurd hc (by simp)
    | false =>
      have e2 : expand_onestep gradient transform likelihood fuel cp fwd
          = expand_reflect gradient transform likelihood fuel cp1 fwd
              (starti + (if fwd then 1 else -1)) xj v := e1
      have e3a : expand_onestep gradient transform likelihood fuel cp fwd
          = (match extrapolate_ahead fuel
                (((if fwd then 1 else -1) : ℤ) : ℚ) xj
                (smulV (((if fwd then 1 else -1) : ℤ) : ℚ) w) with
            | none => none
            | some (xk, vk) => expand_retry transform likelihood cp1 fwd
                (starti + (if fwd then 1 else -1)) xk vk) := by
        rw [e2]
        unfold expand_reflect
        rw [hrev]
      rw [hext2] at e3a
      have e3 : expand_onestep gradient transform likelihood fuel cp fwd
          = (match add_if_above_threshold transform likelihood cp1
              (starti + (if fwd then 1 else -1)) xk vk with
            | (true, cp2) => some (true, cp2)
            | (false, cp2) => expand_fail cp2 fwd) := e3a
      cases h2 : add_if_above_threshold transform likelihood cp1
          (starti + (if fwd then 1 else -1)) xk vk with
      | mk b2 cp2 =>
        have hn2 : cp2.ncalls = cp1.ncalls + 1 := by
          have h := aiat_ncalls transform likelihood cp1
            (starti + (if fwd then 1 else -1)) xk vk
          rw [h2] at h
          exact h
        have hf2 := aiat_flags transform likelihood cp1
          (starti + (if fwd then 1 else -1)) xk vk
        rw [h2] at hf2
        rw [h2] at e3
        cases b2 with
        | true =>
          refine ⟨true, cp2, e3, by omega, by omega, ?_, ?_⟩
          · intro _
            exact ⟨hf2.1.trans hf1.1, hf2.2.trans hf1.2⟩
          · intro hc
            exact absurd hc (by simp)
        | false =>
          have e4 : expand_onestep gradient transform likelihood fuel cp fwd
              = expand_fail cp2 fwd := e3
          cases fwd with
          | true =>
            have e5 : expand_onestep gradient transform likelihood fuel cp true
                = some (false, { cp2 with
                    spath := { cp2.spath with fwd_possible := false } }) := e4
            refine ⟨false,
              { cp2 with spath := { cp2.spath with fwd_possible := false } },
              e5, show cp.ncalls + 1 ≤ cp2.ncalls by omega,
              show cp2.ncalls ≤ cp.ncalls + 2 by omega, ?_, ?_⟩
            · intro hc
              exact absurd hc (by simp)
            · intro _
              refine ⟨show cp2.ncalls = cp.ncalls + 2 by omega,
                fun _ => ⟨rfl, ?_⟩, fun hc => absurd hc (by simp)⟩
              show cp2.spath.rwd_possible = cp.spath.rwd_possible
              exact hf2.2.trans hf1.2
          | false =>
            have e5 : expand_onestep gradient transform likelihood fuel cp false
                = some (false, { cp2 with
                    spath := { cp2.spath with rwd_possible := false } }) := e4
            refine ⟨false,
              { cp2 with spath := { cp2.spath with rwd_possible := false } },
              e5, show cp.ncalls + 1 ≤ cp2.ncalls by omega,
              show cp2.ncalls ≤ cp.ncalls + 2 by omega, ?_, ?_⟩
            · intro hc
              exact absurd hc (by simp)
            · intro _
              refine ⟨show cp2.ncalls = cp.ncalls + 2 by omega,
                fun hc => absurd hc (by simp), fun _ => ⟨rfl, ?_⟩⟩
              show cp2.spath.fwd_possible = cp.spath.fwd_possible
              exact hf2.1.trans hf1.1

set_option maxHeartbeats 1600000 in
/-- C3, witness: a one-point path at `[1/2]` heading into the wall `1`; the
first extrapolated step bounces and is accepted (likelihood `1/2 >` the
threshold `0`), so one attempt is made and both flags survive. -/
theorem claim_C3_expand_onestep_witness :
    ∃ b cp', expand_onestep (fun _ => none) (fun x => x) (fun p => p.getD 0 0)
        2 ⟨⟨[((0:ℤ), [(1:ℚ)/2], [(1:ℚ)], some (1:ℚ))], true, true⟩, 0, 0⟩ true
      = some (b, cp') ∧
      0 + 1 ≤ cp'.ncalls ∧ cp'.ncalls ≤ 0 + 2 ∧
      (b = true → cp'.spath.fwd_possible = true ∧
        cp'.spath.rwd_possible = true) ∧
      (b = false → cp'.ncalls = 0 + 2 ∧
        (true = true → cp'.spath.fwd_possible = false ∧
          cp'.spath.rwd_possible = true) ∧
        (true = false → cp'.spath.rwd_possible = false ∧
          cp'.spath.fwd_possible = true)) := by
  apply claim_C3_expand_onestep (fun _ => none) (fun x => x)
    (fun p => p.getD 0 0) 2
    ⟨⟨[((0:ℤ), [(1:ℚ)/2], [(1:ℚ)], some (1:ℚ))], true, true⟩, 0, 0⟩ true
    0 [(1:ℚ)/2] [(1:ℚ)] (some (1:ℚ)) [(1:ℚ)/2] [(-1:ℚ)] [(1:ℚ)]
    [(1:ℚ)/2] [(-1:ℚ)]
  · show maxPointD [((0:ℤ), [(1:ℚ)/2], [(1:ℚ)], some (1:ℚ))]
      = some ((0:ℤ), [(1:ℚ)/2], [(1:ℚ)], some (1:ℚ))
    norm_num [maxPointD, listMaxO, idxOf, List.foldl, List.map_cons,
      List.map_nil, List.filter_cons, List.filter_nil]
  · show spExtrapolate 2
        ⟨[((0:ℤ), [(1:ℚ)/2], [(1:ℚ)], some (1:ℚ))], true, true⟩
        ((0:ℤ) + 1) = some ([(1:ℚ)/2], [(-1:ℚ)])
    norm_num [spExtrapolate, maxPointD, minPointD, listMaxO, listMinO, idxOf,
      extrapolate_ahead, linear_steps_with_reflection, lswrAux,
      nearest_box_intersection_line, inBoxb, slabTime, clamp01, negV, flipAt,
      updAt, axpyV, List.filter_cons, List.filter_nil, List.all_cons,
      List.all_nil, List.getD, List.zipWith, List.foldl, List.range,
      List.range.loop, List.filterMap, List.map_cons, List.map_nil,
      Option.some.injEq, abs_of_pos, abs_of_neg]
  · show reverse (fun _ => none) [(1:ℚ)/2]
        (smulV (((1:ℤ)) : ℚ) [(-1:ℚ)]) = some [(1:ℚ)]
    norm_num [reverse, negV, smulV]
  · show extrapolate_ahead 2 (((1:ℤ)) : ℚ) [(1:ℚ)/2]
        (smulV (((1:ℤ)) : ℚ) [(1:ℚ)]) = some ([(1:ℚ)/2], [(-1:ℚ)])
    norm_num [smulV, extrapolate_ahead, linear_steps_with_reflection, lswrAux,
      nearest_box_intersection_line, inBoxb, slabTime, clamp01, negV, flipAt,
      updAt, axpyV, listMinO, listMaxO, List.filter_cons, List.filter_nil,
      List.all_cons,
      List.all_nil, List.getD, List.zipWith, List.foldl, List.range,
      List.range.loop, List.filterMap, Option.some.injEq,
      abs_of_pos, abs_of_neg]

end FlatNuts
